import Mathlib

/-!
Verification development for the workflow-execution backend.

The definitions below are a shallow embedding of the Python sources:
`app/schemas/graph.py`, `app/engine/graph.py`, `app/engine/executor.py`,
`app/blocks/base.py`, `app/blocks/registry.py`, `app/blocks/std/start.py`,
`app/blocks/executors/math_add.py`, `app/blocks/executors/calculator.py`,
and `app/blocks/std/agent_react.py`.  JSON values are modelled by the
inductive `Json` with numbers idealized as rationals (Python floats are
not bit-modelled; claims about exact float rounding are out of scope).
Python dicts are association lists with unique keys in insertion order.
-/

namespace WorkflowSpec


/-- JSON values as manipulated by the engine.  Numbers are idealized as
rationals; objects are association lists in insertion order. -/
inductive Json where
  | null
  | bool (b : Bool)
  | num (q : ℚ)
  | str (s : String)
  | arr (items : List Json)
  | obj (entries : List (String × Json))

/-- Lookup in an association list, first match wins (Python dicts keep
unique keys, so this coincides with dict lookup). -/
def lookupEntries : List (String × Json) → String → Option Json
  | [], _ => none
  | (k, v) :: rest, key => if k = key then some v else lookupEntries rest key

/-- Python `d.get(key)` on a JSON object; `none` when the key is absent or
the value is not an object. -/
def Json.get : Json → String → Option Json
  | .obj entries, k => lookupEntries entries k
  | _, _ => none

/-- Python `d.get(key)` with a default for the missing case. -/
def Json.getD (j : Json) (k : String) (dflt : Json) : Json :=
  (j.get k).getD dflt

/-- Python truthiness of a JSON value (`bool(x)`). -/
def Json.truthy : Json → Bool
  | .null => false
  | .bool b => b
  | .num q => decide (q ≠ 0)
  | .str s => decide (s ≠ "")
  | .arr items => ¬ items.isEmpty
  | .obj entries => ¬ entries.isEmpty

/-- Python `a or b`. -/
def pyOr (a b : Json) : Json := if a.truthy then a else b

/-- Whether a JSON value is an object (`isinstance(x, dict)`). -/
def Json.isObj : Json → Bool
  | .obj _ => true
  | _ => false

/-- Python `s.startswith(pre)` (structural form of `String.startsWith`,
kept computable down to the kernel). -/
def pyStartsWith (s pre : String) : Bool :=
  s.data.take pre.data.length == pre.data

/-! ## Graph model — `app/schemas/graph.py` -/

/-- A graph node: `Node` in `app/schemas/graph.py` (the optional UI
`position` field plays no role in the engine and is omitted). -/
structure GNode where
  id : String
  type : String
  settings : Json

/-- A graph edge: `Edge` in `app/schemas/graph.py`; `from` is serialized
from the wire name, stored as `from_node`, and `kind` defaults to
"control". -/
structure GEdge where
  id : String
  from_node : String
  to_node : String
  kind : String

/-- A workflow graph: `Graph` in `app/schemas/graph.py`. -/
structure Graph where
  nodes : List GNode
  edges : List GEdge

/-- The node ids in node-list (insertion) order. -/
def nodeIds (g : Graph) : List String := g.nodes.map (·.id)

/-- Deduplication keeping the first occurrence, mirroring the key set /
key order of a Python dict built by iterating a list. -/
def dedupFirstAux : List String → List String → List String
  | [], _ => []
  | x :: xs, seen => if x ∈ seen then dedupFirstAux xs seen else x :: dedupFirstAux xs (x :: seen)

/-- Deduplicate a list of strings keeping first occurrences. -/
def dedupFirst (l : List String) : List String := dedupFirstAux l []

/-- The edges the topological sort actually processes: `_toposort` skips
every edge whose `kind` equals "tool" and processes all others. -/
def controlEdges (g : Graph) : List GEdge :=
  g.edges.filter (fun e => ¬ (e.kind = "tool"))

/-- The value of `children[u]` in `Graph._toposort`: targets of non-tool
edges leaving `u`, in edge order. -/
def childrenOf (g : Graph) (u : String) : List String :=
  ((controlEdges g).filter (fun e => e.from_node = u)).map (·.to_node)

/-- The number of non-tool edges into `v` whose origin is not in
`popped`; `initIndeg` below is the `popped = []` case and matches the
`indeg` dict of `Graph._toposort` right before the loop. -/
def remIndeg (g : Graph) (popped : List String) (v : String) : Int :=
  ((controlEdges g).filter (fun e => e.to_node = v ∧ e.from_node ∉ popped)).length

/-- Initial in-degrees of `Graph._toposort`. -/
def initIndeg (g : Graph) (v : String) : Int := remIndeg g [] v

/-- The keys of the `indeg` dict, in insertion order (node-list order,
first occurrence kept as a Python dict does). -/
def kahnKeys (g : Graph) : List String := dedupFirst (nodeIds g)

/-- The initial queue of `Graph._toposort`: zero in-degree node ids in
dict insertion order. -/
def initQueue (g : Graph) : List String :=
  (kahnKeys g).filter (fun v => initIndeg g v = 0)

/-- One child update of the Kahn loop body: decrement the in-degree of
`c` and enqueue `c` when it reaches zero (`indeg[c] -= 1; if indeg[c] ==
0: queue.append(c)`). -/
def kahnChildStep (st : (String → Int) × List String) (c : String) : (String → Int) × List String :=
  let d := st.1 c - 1
  (fun v => if v = c then d else st.1 v, if d = 0 then st.2 ++ [c] else st.2)

/-- The `while queue:` loop of `Graph._toposort`, with an explicit fuel
parameter; `kahnFuel` below is proved (see `kahnRun_measure`) to strictly
dominate the number of iterations, so the fuel-out branch is never
reached from the initial state. -/
def kahnRun (g : Graph) : Nat → (String → Int) → List String → List String → List String
  | 0, _, _, order => order
  | _ + 1, _, [], order => order
  | f + 1, indeg, q :: qs, order =>
    let st := (childrenOf g q).foldl kahnChildStep (indeg, qs)
    kahnRun g f st.1 st.2 (order ++ [q])

/-- Weight of an in-degree assignment over the dict keys, used as the
loop-termination measure together with the queue length. -/
def indegWeight (keys : List String) (indeg : String → Int) : Nat :=
  (keys.map (fun v => (indeg v + 1).toNat)).sum

/-- Fuel that strictly dominates the number of Kahn loop iterations. -/
def kahnFuel (g : Graph) : Nat :=
  indegWeight (kahnKeys g) (initIndeg g) + (initQueue g).length + 1

/-- The loop of `Graph._toposort` as a total function returning the visit order
(possibly shorter than the node list when a control cycle exists);
`app/engine/graph.py`'s `toposort` delegates to this. -/
def toposort (g : Graph) : List String :=
  kahnRun g (kahnFuel g) (initIndeg g) (initQueue g) []

/-- The function `toposort` from `app/engine/graph.py`, which simply calls
`Graph._toposort`. -/
def engineToposort (g : Graph) : List String := toposort g

/-- The final length check of `Graph._toposort`: raise "Graph contains a
cycle" when the order misses nodes. -/
def toposortChecked (g : Graph) : Except String (List String) :=
  let order := toposort g
  if order.length ≠ g.nodes.length then .error "Graph contains a cycle" else .ok order

/-- Validation `Graph._validate_graph`: duplicate-id check (`len(set(ids)) !=
len(nodes)`), edge-endpoint check, then the cycle check via
`_toposort`.  This is the whole of graph validation run by pydantic both
at `POST /validate-graph` and at workflow write time. -/
def validateGraph (g : Graph) : Except String (List String) :=
  if (dedupFirst (nodeIds g)).length ≠ g.nodes.length then
    .error "Duplicate node IDs in graph"
  else
    match g.edges.find? (fun e => ¬ ((nodeIds g).contains e.from_node ∧ (nodeIds g).contains e.to_node)) with
    | some e => .error ("Edge " ++ e.id ++ " references missing node(s)")
    | none => toposortChecked g

/-- The registered block type names: every `@register("...")` decorator
in `app/blocks/std` and `app/blocks/executors`. -/
def registeredBlockTypes : List String :=
  ["http.request", "agent.react", "ui.audio", "file.save", "start",
   "audio.stt", "show.image", "llm.simple", "audio.tts", "gcs.write",
   "web.get", "show", "tool.websearch", "tool.composio", "util.sleep",
   "json.get", "transform.uppercase", "tool.code_interpreter", "math.add",
   "tool.calculator", "control.branch", "tool.http_request", "transform.template"]

/-- The edge relation of the control subgraph: a non-tool edge from `u`
to `v`. -/
def ctrlStep (g : Graph) (u v : String) : Prop :=
  ∃ e ∈ controlEdges g, e.from_node = u ∧ e.to_node = v

/-- Acyclicity of the control subgraph: no node reaches itself through a
nonempty chain of non-tool edges. -/
def ControlAcyclic (g : Graph) : Prop :=
  ∀ v, ¬ Relation.TransGen (ctrlStep g) v v

/-- Well-formed edge endpoints: every edge references existing nodes
(established by `_validate_graph` before `_toposort` runs). -/
def EdgesWF (g : Graph) : Prop :=
  ∀ e ∈ g.edges, e.from_node ∈ nodeIds g ∧ e.to_node ∈ nodeIds g

/-! ## Template renderer — `Block.render_expression` in `app/blocks/base.py` -/

/-- A parsed template: literal text interleaved with variable path
expressions (the attribute/index-access subset of the engine's template
language that the spec describes). -/
inductive TplPart where
  | lit (s : String)
  | var (path : List String)

/-- A template is a list of parts. -/
abbrev Template := List TplPart

/-- String rendering of a JSON value in template output.  Strings and
integral numbers render exactly; the display of other shapes is fixed
but abstract (the engine only interpolates strings and numbers in the
verified claims). -/
def renderValue : Json → String
  | .str s => s
  | .num q => if q.den = 1 then toString q.num else toString q
  | .bool b => if b then "True" else "False"
  | .null => "None"
  | .arr _ => "[...]"
  | .obj _ => "[object]"

/-- Resolve the attribute/index steps after the head variable. -/
def resolveSteps : List String → Json → Option Json
  | [], v => some v
  | k :: rest, v => (Json.get v k).bind (resolveSteps rest)

/-- Resolve a full variable path against the render context; `none` is an
undefined variable or missing attribute. -/
def resolvePath (ctx : List (String × Json)) : List String → Option Json
  | [] => none
  | x :: rest => (lookupEntries ctx x).bind (resolveSteps rest)

/-- Rendering with `StrictUndefined`: an undefined variable or missing
attribute raises UndefinedError. -/
def strictRender : Template → List (String × Json) → Except String String
  | [], _ => .ok ""
  | .lit t :: rest, ctx => (strictRender rest ctx).map (fun s => t ++ s)
  | .var p :: rest, ctx =>
    match resolvePath ctx p with
    | some v => (strictRender rest ctx).map (fun s => renderValue v ++ s)
    | none => .error "UndefinedError"

/-- Rendering with the default permissive environment: undefined values
render as the empty string. -/
def permissiveRender : Template → List (String × Json) → String
  | [], _ => ""
  | .lit t :: rest, ctx => t ++ permissiveRender rest ctx
  | .var p :: rest, ctx =>
    (match resolvePath ctx p with
     | some v => renderValue v
     | none => "") ++ permissiveRender rest ctx

/-- Python `dict.update` semantics: keys of `base` keep their position
with values overridden by `extra`; new keys of `extra` are appended. -/
def dictUpdate (base extra : List (String × Json)) : List (String × Json) :=
  base.map (fun kv => (kv.1, (lookupEntries extra kv.1).getD kv.2))
    ++ extra.filter (fun kv => ¬ (base.map (·.1)).contains kv.1)

/-- The context composed in `render_expression`: `ctx.update(upstream)`
then `ctx.update(extra)`. -/
def composeCtx (upstream extra : List (String × Json)) : List (String × Json) :=
  dictUpdate upstream extra

/-- Renderer `Block.render_expression` (`app/blocks/base.py` lines 56-72): try the
strict environment; on any exception fall back to the permissive
environment, where undefined renders as the empty string.  There is no
caller-selectable strict mode. -/
def render_expression (tpl : Template) (upstream extra : List (String × Json)) : String :=
  let ctx := composeCtx upstream extra
  match strictRender tpl ctx with
  | .ok s => s
  | .error _ => permissiveRender tpl ctx

/-- The prompt-rendering step of `AgentReactBlock.run`
(`app/blocks/std/agent_react.py` lines 74-77): it calls the same
`render_expression` and, should the renderer itself raise, falls back to
the raw template string; in this total model the renderer never raises,
so the step is exactly `render_expression`.  No ConfigError exists
anywhere in the sources. -/
def agentRenderPrompt (tpl : Template) (upstream extra : List (String × Json)) : String :=
  render_expression tpl upstream extra

/-! ## Calculator — `safe_eval` in `app/blocks/executors/calculator.py` -/

/-- Python constant literals relevant to `ast.Constant`. -/
inductive PyConst where
  | int (n : Int)
  | float (q : ℚ)
  | bool (b : Bool)
  | str (s : String)
  | none

/-- Binary operator AST nodes; the first six are the members of
`_OPERATORS`, `otherOp` stands for every other operator node
(`FloorDiv`, `BitOr`, ...). -/
inductive PyBinOp where
  | add | sub | mult | div | pow | mod
  | otherOp (kind : String)

/-- Unary operator AST nodes; `otherUnary` stands for `Not`, `Invert`,
... -/
inductive PyUnaryOp where
  | uadd | usub
  | otherUnary (kind : String)

/-- Python expression ASTs as walked by `safe_eval`; `other` stands for
every expression node outside `_ALLOWED_NODES` (`Name`, `Call`,
`Compare`, `Attribute`, ...).  Its children are irrelevant and omitted:
the walk rejects the node itself before its children could matter. -/
inductive PyAst where
  | constant (c : PyConst)
  | binOp (left : PyAst) (op : PyBinOp) (right : PyAst)
  | unaryOp (op : PyUnaryOp) (operand : PyAst)
  | other (kind : String)

/-- Whether a binary operator node is in `_ALLOWED_NODES`. -/
def allowedBinOp : PyBinOp → Bool
  | .otherOp _ => false
  | _ => true

/-- Whether a unary operator node is in `_ALLOWED_NODES`
(`USub`/`UAdd`). -/
def allowedUnaryOp : PyUnaryOp → Bool
  | .otherUnary _ => false
  | _ => true

/-- The `ast.walk` check of `safe_eval`: every node of the tree must be
an instance of `_ALLOWED_NODES`.  A node outside the allowed set fails
the check no matter where it occurs. -/
def walkAllowed : PyAst → Bool
  | .constant _ => true
  | .binOp l op r => allowedBinOp op && walkAllowed l && walkAllowed r
  | .unaryOp op a => allowedUnaryOp op && walkAllowed a
  | .other _ => false

/-- A tree contains a node whose kind is outside `_ALLOWED_NODES`. -/
def containsDisallowed : PyAst → Bool
  | .constant _ => false
  | .binOp l op r => !allowedBinOp op || containsDisallowed l || containsDisallowed r
  | .unaryOp op a => !allowedUnaryOp op || containsDisallowed a
  | .other _ => true

/-- Python float modulo: sign follows the divisor
(`-5 % 3 == 1`). -/
def pymod (a b : ℚ) : ℚ := a - b * (⌊a / b⌋ : ℤ)

/-- Power in the rational idealization: defined for integer exponents
(negative exponents of zero raise ZeroDivisionError in Python, hence
`none`); non-integer exponents produce irrational floats and are outside
the rational model. -/
def pypow (a b : ℚ) : Option ℚ :=
  if b.den = 1 then
    if 0 ≤ b.num then some (a ^ b.num.toNat)
    else if a = 0 then none
    else some (a ^ b.num)
  else none

/-- The recursive `_eval` of `safe_eval`.  Note Python `bool` is a
subclass of `int`, so boolean constants pass the
`isinstance(value, (int, float))` test and evaluate to 1.0/0.0; strings
and None raise "Only numeric constants allowed". -/
def evalAst : PyAst → Except String ℚ
  | .constant (.int n) => .ok (n : ℚ)
  | .constant (.float q) => .ok q
  | .constant (.bool b) => .ok (if b then 1 else 0)
  | .constant _ => .error "Only numeric constants allowed"
  | .unaryOp op a => do
    let v ← evalAst a
    match op with
    | .uadd => .ok v
    | .usub => .ok (-v)
    | .otherUnary _ => .error "Unsupported unary op"
  | .binOp l op r => do
    let a ← evalAst l
    let b ← evalAst r
    match op with
    | .add => .ok (a + b)
    | .sub => .ok (a - b)
    | .mult => .ok (a * b)
    | .div => if b = 0 then .error "ZeroDivisionError" else .ok (a / b)
    | .mod => if b = 0 then .error "ZeroDivisionError" else .ok (pymod a b)
    | .pow =>
      match pypow a b with
      | some v => .ok v
      | Option.none => .error "ZeroDivisionError"
    | .otherOp _ => .error "Unsupported operator"
  | .other _ => .error "Unsupported expression"

/-- Function `safe_eval` (`app/blocks/executors/calculator.py` lines 41-70): walk
the whole tree rejecting disallowed node kinds, then evaluate. -/
def safe_eval (t : PyAst) : Except String ℚ :=
  if walkAllowed t then evalAst t else .error "Disallowed expression"

/-- The result assembly of `CalculatorBlock.run`: evaluate and wrap as
`CalcOutput(result=val)`. -/
def calculatorEval (t : PyAst) : Except String Json :=
  (safe_eval t).map (fun v => Json.obj [("result", Json.num v)])

/-- The arithmetic expressions the spec describes: numeric literals
combined with `+ - * / % **` and unary plus/minus. -/
inductive Arith where
  | lit (q : ℚ)
  | pos (a : Arith)
  | neg (a : Arith)
  | add (a b : Arith)
  | sub (a b : Arith)
  | mul (a b : Arith)
  | div (a b : Arith)
  | mod (a b : Arith)
  | pow (a b : Arith)

/-- The Python AST a spec-level arithmetic expression parses to. -/
def Arith.toAst : Arith → PyAst
  | .lit q => .constant (.float q)
  | .pos a => .unaryOp .uadd a.toAst
  | .neg a => .unaryOp .usub a.toAst
  | .add a b => .binOp a.toAst .add b.toAst
  | .sub a b => .binOp a.toAst .sub b.toAst
  | .mul a b => .binOp a.toAst .mult b.toAst
  | .div a b => .binOp a.toAst .div b.toAst
  | .mod a b => .binOp a.toAst .mod b.toAst
  | .pow a b => .binOp a.toAst .pow b.toAst

/-- The mathematical value of a spec-level arithmetic expression in the
rational idealization; `none` on division/modulo by zero and on the
powers `pypow` leaves undefined. -/
def Arith.val : Arith → Option ℚ
  | .lit q => some q
  | .pos a => a.val
  | .neg a => match a.val with | some x => some (-x) | none => none
  | .add a b => match a.val, b.val with | some x, some y => some (x + y) | _, _ => none
  | .sub a b => match a.val, b.val with | some x, some y => some (x - y) | _, _ => none
  | .mul a b => match a.val, b.val with | some x, some y => some (x * y) | _, _ => none
  | .div a b =>
    match a.val, b.val with
    | some x, some y => if y = 0 then none else some (x / y)
    | _, _ => none
  | .mod a b =>
    match a.val, b.val with
    | some x, some y => if y = 0 then none else some (pymod x y)
    | _, _ => none
  | .pow a b => match a.val, b.val with | some x, some y => pypow x y | _, _ => none

/-! ## Blocks — start, math.add, registry dispatch -/

/-- The `settings` extraction of `run_block`
(`app/blocks/registry.py` line 23): get the settings key of the input,
defaulting the missing key and the falsy value to the empty dict. -/
def run_block_settings (input : Json) : Json :=
  pyOr (input.getD "settings" .null) (Json.obj [])

/-- Validation of `StartSettings` (pydantic): `payload` is an optional
object; with the default config extra keys are dropped, so the validated
dump is exactly the `payload` field (null when absent). -/
def startSettingsValidate (raw : Json) : Except String Json :=
  match raw with
  | .obj _ =>
    match raw.get "payload" with
    | some (.obj entries) => .ok (.obj [("payload", .obj entries)])
    | some .null => .ok (.obj [("payload", .null)])
    | some _ => .error "ValidationError: payload must be an object"
    | Option.none => .ok (.obj [("payload", .null)])
  | _ => .error "ValidationError: settings must be an object"

/-- The payload resolution of `StartBlock.run`: `settings.get("payload")`
and, when that is None, `input.get("trigger") or` the empty dict (note the Python
`or`: a falsy trigger is replaced by the empty dict). -/
def startResolvePayload (settings trig : Json) : Json :=
  match settings.getD "payload" .null with
  | .null => pyOr trig (Json.obj [])
  | p => p

/-- Method `StartBlock.run` (`app/blocks/std/start.py` lines 22-29): return the
resolved payload directly when it is a dict, else wrap it as
a value-keyed object. -/
def startRun (settings trig : Json) : Json :=
  let payload := startResolvePayload settings trig
  if payload.isObj then payload else Json.obj [("value", payload)]

/-- The start block as dispatched by `run_block`: construct the instance
(validating settings) and run it on the input envelope. -/
def start_block (input : Json) : Except String Json := do
  let settings ← startSettingsValidate (run_block_settings input)
  .ok (startRun settings (input.getD "trigger" .null))

/-- The attribute table of a freshly constructed block instance:
`Block.__init__` sets only `self.settings` (`app/blocks/base.py` lines
34-35).  `MathAddBlock` declares the legacy `input_model`, not
`settings_model`, so `validate_settings` passes the raw settings
through. -/
def blockInstanceAttrs (settings : Json) : List (String × Json) :=
  [("settings", settings)]

/-- Python `float(x)` on a JSON scalar (bools are ints; other shapes
raise TypeError). -/
def pyFloat : Json → Except String ℚ
  | .num q => .ok q
  | .bool b => .ok (if b then 1 else 0)
  | _ => .error "TypeError: float() argument"

/-- Method `MathAddBlock.run` (`app/blocks/executors/math_add.py` lines 27-30):
it reads `self.params`, an attribute no `Block` ever sets, so the
attribute lookup raises AttributeError before any arithmetic happens;
the arithmetic of the (unreachable) body is kept for reference. -/
def mathAddRun (settings : Json) : Except String Json :=
  match lookupEntries (blockInstanceAttrs settings) "params" with
  | some params => do
    let a ← pyFloat (params.getD "a" (.num 0))
    let b ← pyFloat (params.getD "b" (.num 0))
    .ok (.obj [("result", .num (a + b))])
  | Option.none => .error "AttributeError: MathAddBlock object has no attribute params"

/-- The math.add block as dispatched by `run_block`. -/
def math_add_block (input : Json) : Except String Json :=
  mathAddRun (run_block_settings input)

/-- Dispatch `run_block` (`app/blocks/registry.py` lines 17-25) restricted to the
block implementations embedded in this development; every type outside
the registry raises "Unknown block type".  Registered blocks not
embedded here (HTTP, LLM, file, agent blocks - they perform I/O) are not
covered, and no theorem below dispatches to them. -/
def run_block_model (t : String) (input : Json) : Except String Json :=
  if t = "start" then start_block input
  else if t = "math.add" then math_add_block input
  else .error ("Unknown block type: " ++ t)

/-! ## Run executor — `app/engine/executor.py` -/

/-- A NodeRun row as written by the executor. -/
structure NodeRunRec where
  node_id : String
  node_type : String
  status : String
  input_json : Option Json
  output_json : Option Json
  error_json : Option Json

/-- A log row as appended by `insert_log`. -/
structure LogRec where
  message : String
  data : Option Json
  node_id : Option String

/-- The in-memory state the node loop threads: the `outputs` dict, the
NodeRun rows written so far, and the appended logs. -/
structure LoopState where
  outputs : List (String × Json)
  nodeRuns : List NodeRunRec
  logs : List LogRec

/-- The state at loop entry. -/
def initLoopState : LoopState := ⟨[], [], []⟩

/-- Append one log row (`insert_log`). -/
def addLog (st : LoopState) (message : String) (data : Option Json) (nid : Option String) : LoopState :=
  { st with logs := st.logs ++ [⟨message, data, nid⟩] }

/-- Helper `_mark_node_status`: INSERT a NodeRun row with status running. -/
def markNodeRunning (st : LoopState) (nid ntype : String) : LoopState :=
  { st with nodeRuns := st.nodeRuns ++ [⟨nid, ntype, "running", Option.none, Option.none, Option.none⟩] }

/-- An SQL UPDATE on the NodeRun rows of one node id
(`_persist_node_success` / `_persist_node_error`). -/
def updateNodeRun (rows : List NodeRunRec) (nid : String) (f : NodeRunRec → NodeRunRec) : List NodeRunRec :=
  rows.map (fun r => if r.node_id = nid then f r else r)

/-- Map builder `build_parent_child_maps` (`app/engine/graph.py`): the parent list of
a node collects the origins of ALL edges into it (tool edges included),
in edge order. -/
def parentsOf (g : Graph) (nid : String) : List String :=
  (g.edges.filter (fun e => e.to_node = nid)).map (·.from_node)

/-- The `tool_children` map of `execute_run` (lines 38-43): targets of
tool edges leaving a node, in edge order. -/
def toolChildrenOf (g : Graph) (nid : String) : List String :=
  (g.edges.filter (fun e => e.kind = "tool" && e.from_node = nid)).map (·.to_node)

/-- The `upstream_outputs` dict of `execute_run` (line 74): parents of
the node restricted to those with an output, keyed in parent order
(duplicate parents collapse as dict keys do). -/
def computeUpstream (g : Graph) (nid : String) (outputs : List (String × Json)) : List (String × Json) :=
  (dedupFirst (parentsOf g nid)).filterMap
    (fun pid => (lookupEntries outputs pid).map (fun o => (pid, o)))

/-- The `__derived_tools_from_edges__` list of `execute_run` (lines
84-95). -/
def derivedTools (g : Graph) (nid : String) : List Json :=
  (toolChildrenOf g nid).filterMap (fun tid =>
    (g.nodes.find? (fun n => n.id = tid)).map (fun tn =>
      let tsettings := pyOr tn.settings (Json.obj [])
      Json.obj [("id", .str tn.id),
                ("name", pyOr (tsettings.getD "name" .null) (.str tn.id)),
                ("type", .str tn.type),
                ("settings", tsettings)]))

/-- The `node_input` dict of `execute_run` (lines 75-96): settings,
upstream, trigger and node_id - and, for agent nodes with tool children,
the derived tools.  No user_id key is ever added. -/
def buildNodeInput (g : Graph) (node : GNode) (outputs : List (String × Json)) (trigger : Json) : Json :=
  let base := [("settings", pyOr node.settings (Json.obj [])),
               ("upstream", Json.obj (computeUpstream g node.id outputs)),
               ("trigger", trigger),
               ("node_id", Json.str node.id)]
  if pyStartsWith node.type "agent." && !(toolChildrenOf g node.id).isEmpty then
    Json.obj (base ++ [("__derived_tools_from_edges__", Json.arr (derivedTools g node.id))])
  else Json.obj base

/-- The node loop of `execute_run` (lines 64-110), parameterized by the
block semantics `rb` (instantiated with `run_block_model` for concrete
graphs): skip tool nodes with a log, otherwise log the start, build the
input, insert the running NodeRun row, and invoke the block; on success
record the output and continue, on failure persist the error, log
"Node <id> failed: <msg>" and abort with the exception. -/
def execLoop (g : Graph) (rb : String → Json → Except String Json) (trigger : Json) :
    List String → LoopState → LoopState × Option String
  | [], st => (st, Option.none)
  | nid :: rest, st =>
    match g.nodes.find? (fun n => n.id = nid) with
    | Option.none => (st, some "StopIteration")
    | some node =>
      if pyStartsWith node.type "tool." then
        execLoop g rb trigger rest
          (addLog st ("Skipping tool node " ++ node.id ++ " in main execution (invoked via agent tools)")
            Option.none (some node.id))
      else
        let st1 := addLog st ("Starting node " ++ node.id) Option.none (some node.id)
        let input := buildNodeInput g node st1.outputs trigger
        let st2 := markNodeRunning st1 node.id node.type
        match rb node.type input with
        | .ok result =>
          let st3 : LoopState :=
            { outputs := st2.outputs ++ [(node.id, result)],
              nodeRuns := updateNodeRun st2.nodeRuns node.id (fun r =>
                { r with status := "succeeded", input_json := some input, output_json := some result }),
              logs := st2.logs }
          execLoop g rb trigger rest (addLog st3 ("Finished node " ++ node.id) Option.none (some node.id))
        | .error msg =>
          let st3 : LoopState :=
            { outputs := st2.outputs,
              nodeRuns := updateNodeRun st2.nodeRuns node.id (fun r =>
                { r with status := "failed", input_json := some input,
                         error_json := some (Json.obj [("message", .str msg)]) }),
              logs := st2.logs }
          (addLog st3 ("Node " ++ node.id ++ " failed: " ++ msg)
            (some (Json.obj [("error", .str msg)])) (some node.id), some msg)

/-- The try/except of `execute_run` (lines 63-116): run the loop over the
given order; on clean completion the run is marked succeeded, on an
escaped exception it is marked failed, both persisting the outputs
gathered so far. -/
def execBody (g : Graph) (rb : String → Json → Except String Json) (trigger : Json)
    (order : List String) : LoopState × String :=
  match execLoop g rb trigger order initLoopState with
  | (st, Option.none) => (st, "succeeded")
  | (st, some _) => (st, "failed")

/-- The Run row as the executor leaves it; `uncaught` records an
exception that escaped `execute_run` itself. -/
structure RunRec where
  status : String
  outputs_json : Option Json
  uncaught : Option String

/-- The declared fields of the `RunContext` dataclass
(`app/blocks/base.py` lines 14-18). -/
def runContextFields : List String := ["gcs", "http", "logger"]

/-- The keyword arguments `execute_run` passes to `RunContext`
(`app/engine/executor.py` line 61). -/
def runContextCallKwargs : List String := ["gcs", "http", "logger", "user_id"]

/-- Python dataclass construction with keyword arguments: any keyword
not among the declared fields raises TypeError. -/
def dataclassCall (fields kwargs : List String) : Except String Unit :=
  match kwargs.find? (fun k => ¬ fields.contains k) with
  | some k => .error ("TypeError: unexpected keyword argument " ++ k)
  | Option.none => .ok ()

/-- Entry point `execute_run` (`app/engine/executor.py` lines 19-118): the run is
marked running, then - still outside the try/except - the graph snapshot
is re-validated and ordered and the run context is constructed; only
then does the try around the node loop begin.  Any exception raised
before the try (including the TypeError from passing user_id to
`RunContext` at line 61) escapes with the run left in status
running. -/
def execute_run (g : Graph) (rb : String → Json → Except String Json) (trigger : Json) : RunRec :=
  match validateGraph g with
  | .error e => ⟨"running", Option.none, some e⟩
  | .ok order =>
    match dataclassCall runContextFields runContextCallKwargs with
    | .error e => ⟨"running", Option.none, some e⟩
    | .ok _ =>
      let r := execBody g rb trigger order
      ⟨r.2, some (Json.obj r.1.outputs), Option.none⟩

/-! ## Concrete graphs used by the claims -/

/-- The Hello scenario: one start node with payload hello/world. -/
def helloGraph : Graph :=
  ⟨[⟨"s", "start", Json.obj [("payload", Json.obj [("hello", Json.str "world")])]⟩], []⟩

/-- A single node of an unregistered type, as posted by the repository
test `test_run_unknown_block_fails`. -/
def unknownTypeGraph : Graph :=
  ⟨[⟨"x1", "does.not.exist", Json.obj []⟩], []⟩

/-- A two-node graph whose only cycle is among tool edges. -/
def toolCycleGraph : Graph :=
  ⟨[⟨"a", "agent.react", Json.obj []⟩, ⟨"t", "tool.calculator", Json.obj []⟩],
   [⟨"e1", "a", "t", "tool"⟩, ⟨"e2", "t", "a", "tool"⟩]⟩

/-- The failure-propagation scenario: A → B → C where B's block raises. -/
def failDemoGraph : Graph :=
  ⟨[⟨"A", "start", Json.obj [("payload", Json.obj [("x", Json.num 1)])]⟩,
    ⟨"B", "does.not.exist", Json.obj []⟩,
    ⟨"C", "start", Json.obj []⟩],
   [⟨"e1", "A", "B", "control"⟩, ⟨"e2", "B", "C", "control"⟩]⟩

/-! ## Fold lemmas for the Kahn child updates -/

/-- Count of occurrences of a string in a list (explicit filter form,
aligned with the in-degree bookkeeping). -/
def occCount (cs : List String) (v : String) : Nat :=
  (cs.filter (fun c => c = v)).length

/-- The nodes enqueued while processing a child list: a child is
appended exactly when its decremented in-degree reaches zero. -/
def enqList : List String → (String → Int) → List String
  | [], _ => []
  | c :: cs, f =>
    (if f c - 1 = 0 then [c] else []) ++ enqList cs (fun v => if v = c then f c - 1 else f v)

/-- The decremented in-degree assignment after one child update. -/
def decAt (f : String → Int) (c : String) : String → Int :=
  fun u => if u = c then f c - 1 else f u

/-- The in-degree function after processing a child list. -/
def afterDec : List String → (String → Int) → (String → Int)
  | [], f => f
  | c :: cs, f => afterDec cs (decAt f c)

/-- The invariant the Kahn loop maintains: the in-degree function tracks
the remaining edges, queued nodes are pending with zero in-degree, every
pending zero in-degree node is queued, popped nodes are settled, and the
order built so far respects all non-tool edges into it. -/
structure KahnInv (g : Graph) (indeg : String → Int) (queue order : List String) : Prop where
  indeg_eq : ∀ v, indeg v = remIndeg g order v
  queue_nd : queue.Nodup
  order_nd : order.Nodup
  queue_disj : ∀ v ∈ queue, v ∉ order
  queue_keys : ∀ v ∈ queue, v ∈ kahnKeys g
  queue_zero : ∀ v ∈ queue, indeg v = 0
  order_keys : ∀ v ∈ order, v ∈ kahnKeys g
  order_rem : ∀ v ∈ order, remIndeg g order v = 0
  zero_covered : ∀ v ∈ kahnKeys g, indeg v = 0 → v ∈ order ∨ v ∈ queue
  preced : ∀ e ∈ controlEdges g, e.to_node ∈ order →
    e.from_node ∈ order ∧ order.indexOf e.from_node < order.indexOf e.to_node

/-- The same graph with the tool edges removed. -/
def dropToolEdges (g : Graph) : Graph :=
  ⟨g.nodes, g.edges.filter (fun e => ¬ (e.kind = "tool"))⟩

/-- A control chain with a tool-edge cycle attached to the agent. -/
def c2DemoGraph : Graph :=
  ⟨[⟨"a", "agent.react", Json.obj []⟩,
    ⟨"t", "tool.calculator", Json.obj []⟩,
    ⟨"b", "show", Json.obj []⟩],
   [⟨"e1", "a", "b", "control"⟩, ⟨"e2", "a", "t", "tool"⟩, ⟨"e3", "t", "a", "tool"⟩]⟩

/-- A start node whose settings violate the start settings schema (a
non-object payload); graph validation does not look at settings. -/
def badStartSettingsGraph : Graph :=
  ⟨[⟨"s", "start", Json.obj [("payload", Json.num 5)]⟩], []⟩

/-- The state a failing node leaves behind: running NodeRun row updated
to failed with the error message, failure log appended, outputs
untouched. -/
def errStepState (g : Graph) (node : GNode) (st : LoopState) (trigger : Json)
    (msg : String) : LoopState where
  outputs := st.outputs
  nodeRuns := updateNodeRun
    (st.nodeRuns ++ [⟨node.id, node.type, "running", Option.none, Option.none, Option.none⟩])
    node.id
    (fun r =>
      { r with
        status := "failed"
        input_json := some (buildNodeInput g node st.outputs trigger)
        error_json := some (Json.obj [("message", Json.str msg)]) })
  logs := (st.logs ++ [⟨"Starting node " ++ node.id, Option.none, some node.id⟩])
    ++ [⟨"Node " ++ node.id ++ " failed: " ++ msg,
         some (Json.obj [("error", Json.str msg)]), some node.id⟩]

/-! ## Supporting lemmas for the calculator claim -/

/-- The walk check accepts exactly the trees with no disallowed node. -/
theorem walkAllowed_eq (t : PyAst) : walkAllowed t = !containsDisallowed t := by
  induction t with
  | constant c => simp [walkAllowed, containsDisallowed]
  | binOp l op r ihl ihr =>
    cases op <;>
      simp [walkAllowed, containsDisallowed, allowedBinOp, ihl, ihr, Bool.not_or]
  | unaryOp op a ih =>
    cases op <;>
      simp [walkAllowed, containsDisallowed, allowedUnaryOp, ih, Bool.not_or]
  | other k => simp [walkAllowed, containsDisallowed]

/-- The AST of a spec-level arithmetic expression passes the walk
check. -/
theorem walkAllowed_toAst (a : Arith) : walkAllowed a.toAst = true := by
  induction a <;> simp_all [Arith.toAst, walkAllowed, allowedBinOp, allowedUnaryOp]

/-- Reduction of an `Except` bind on a success value. -/
theorem except_bind_ok {α β ε : Type} (x : α) (f : α → Except ε β) :
    (Except.ok x : Except ε α) >>= f = f x := rfl

/-- The recursion `_eval` computes the value of a spec-level arithmetic expression. -/
theorem evalAst_toAst (a : Arith) (v : ℚ) (h : a.val = some v) :
    evalAst a.toAst = .ok v := by
  induction a generalizing v with
  | lit q =>
    simp [Arith.val] at h
    simp [Arith.toAst, evalAst, h]
  | pos a ih =>
    simp only [Arith.val] at h
    simp [Arith.toAst, evalAst, except_bind_ok, ih v h]
  | neg a ih =>
    cases ha : a.val with
    | none => simp [Arith.val, ha] at h
    | some x =>
      simp [Arith.val, ha] at h
      simp [Arith.toAst, evalAst, except_bind_ok, ih x ha, ← h]
  | add a b iha ihb =>
    cases ha : a.val with
    | none => simp [Arith.val, ha] at h
    | some x =>
      cases hb : b.val with
      | none => simp [Arith.val, ha, hb] at h
      | some y =>
        simp [Arith.val, ha, hb] at h
        simp [Arith.toAst, evalAst, except_bind_ok, iha x ha, ihb y hb, ← h]
  | sub a b iha ihb =>
    cases ha : a.val with
    | none => simp [Arith.val, ha] at h
    | some x =>
      cases hb : b.val with
      | none => simp [Arith.val, ha, hb] at h
      | some y =>
        simp [Arith.val, ha, hb] at h
        simp [Arith.toAst, evalAst, except_bind_ok, iha x ha, ihb y hb, ← h]
  | mul a b iha ihb =>
    cases ha : a.val with
    | none => simp [Arith.val, ha] at h
    | some x =>
      cases hb : b.val with
      | none => simp [Arith.val, ha, hb] at h
      | some y =>
        simp [Arith.val, ha, hb] at h
        simp [Arith.toAst, evalAst, except_bind_ok, iha x ha, ihb y hb, ← h]
  | div a b iha ihb =>
    cases ha : a.val with
    | none => simp [Arith.val, ha] at h
    | some x =>
      cases hb : b.val with
      | none => simp [Arith.val, ha, hb] at h
      | some y =>
        by_cases hy0 : y = 0
        · simp [Arith.val, ha, hb, hy0] at h
        · simp [Arith.val, ha, hb, hy0] at h
          simp [Arith.toAst, evalAst, except_bind_ok, iha x ha, ihb y hb, hy0, ← h]
  | mod a b iha ihb =>
    cases ha : a.val with
    | none => simp [Arith.val, ha] at h
    | some x =>
      cases hb : b.val with
      | none => simp [Arith.val, ha, hb] at h
      | some y =>
        by_cases hy0 : y = 0
        · simp [Arith.val, ha, hb, hy0] at h
        · simp [Arith.val, ha, hb, hy0] at h
          simp [Arith.toAst, evalAst, except_bind_ok, iha x ha, ihb y hb, hy0, ← h]
  | pow a b iha ihb =>
    cases ha : a.val with
    | none => simp [Arith.val, ha] at h
    | some x =>
      cases hb : b.val with
      | none => simp [Arith.val, ha, hb] at h
      | some y =>
        simp [Arith.val, ha, hb] at h
        simp [Arith.toAst, evalAst, except_bind_ok, iha x ha, ihb y hb, h]

/-! ## Claim theorems (C4 - C10) -/

/-- C4: the claim states that any exception surfacing outside a node
during `execute_run` still marks the run failed, so every dispatched run
reaches a terminal status.  The code contradicts this: the graph
re-validation, ordering and run-context construction happen before the
try/except, and the `RunContext(...)` call at executor.py line 61 passes
a `user_id` keyword the dataclass does not declare, so every run raises
TypeError there and is left in status "running" forever. -/
theorem c4_execute_run_stays_running (g : Graph)
    (rb : String → Json → Except String Json) (trigger : Json) :
    (execute_run g rb trigger).status = "running"
    ∧ (execute_run g rb trigger).uncaught.isSome = true
    ∧ (execute_run g rb trigger).status ≠ "succeeded"
    ∧ (execute_run g rb trigger).status ≠ "failed" := by
  have hdc : dataclassCall runContextFields runContextCallKwargs
      = .error "TypeError: unexpected keyword argument user_id" := by rfl
  cases hv : validateGraph g with
  | error e => simp [execute_run, hv]
  | ok o => simp [execute_run, hv, hdc]

/-- C6: the start block returns `settings.payload` when present (else
the trigger payload) as the output object directly - proved below at the
block and loop level for the Hello graph - but the claimed run outcome
(`status succeeded`, `outputs.s`) is never reached: `execute_run`
crashes with TypeError while constructing the RunContext, before any
node executes, leaving the run in status "running". -/
theorem c6_hello_scenario :
    startRun (Json.obj [("payload", Json.obj [("hello", Json.str "world")])]) (Json.obj [])
      = Json.obj [("hello", Json.str "world")]
    ∧ (execBody helloGraph run_block_model (Json.obj []) (toposort helloGraph)).2 = "succeeded"
    ∧ lookupEntries (execBody helloGraph run_block_model (Json.obj [])
        (toposort helloGraph)).1.outputs "s"
        = some (Json.obj [("hello", Json.str "world")])
    ∧ (execute_run helloGraph run_block_model (Json.obj [])).status = "running"
    ∧ (execute_run helloGraph run_block_model (Json.obj [])).status ≠ "succeeded"
    ∧ (execute_run helloGraph run_block_model (Json.obj [])).uncaught
        = some "TypeError: unexpected keyword argument user_id" := by
  refine ⟨rfl, rfl, rfl, rfl, ?_, rfl⟩
  intro h
  rw [show (execute_run helloGraph run_block_model (Json.obj [])).status = "running" from rfl] at h
  exact absurd h (by decide)

/-- C9: the claim (and the repository test `test_run_math_add_executor`)
says `math.add` with settings a=1, b=2 returns result 3; the code reads
`self.params`, an attribute `Block.__init__` never sets (it sets
`self.settings`), so the block raises AttributeError on every input and
never returns a result. -/
theorem c9_math_add_attribute_error :
    math_add_block (Json.obj [("settings", Json.obj [("a", Json.num 1), ("b", Json.num 2)])])
      = .error "AttributeError: MathAddBlock object has no attribute params"
    ∧ (∀ input : Json, math_add_block input
        = .error "AttributeError: MathAddBlock object has no attribute params")
    ∧ math_add_block (Json.obj [("settings", Json.obj [("a", Json.num 1), ("b", Json.num 2)])])
        ≠ .ok (Json.obj [("result", Json.num 3)]) := by
  refine ⟨rfl, fun input => rfl, ?_⟩
  rw [show math_add_block (Json.obj [("settings", Json.obj [("a", Json.num 1), ("b", Json.num 2)])])
      = .error "AttributeError: MathAddBlock object has no attribute params" from rfl]
  simp

/-- C10 counterexample: the claim states every non-dict resolved payload
is returned as a value wrapper; but `StartBlock.run` computes
`input.get("trigger") or` the empty dict, so the falsy non-dict trigger `0`
resolves to the empty dict and the block returns the empty object, not the wrapped value 0. -/
theorem c10_counterexample_falsy_trigger :
    start_block (Json.obj [("settings", Json.obj []), ("trigger", Json.num 0)])
      = .ok (Json.obj [])
    ∧ start_block (Json.obj [("settings", Json.obj []), ("trigger", Json.num 0)])
      ≠ .ok (Json.obj [("value", Json.num 0)])
    ∧ (Json.num 0).isObj = false := by
  refine ⟨rfl, ?_, rfl⟩
  rw [show start_block (Json.obj [("settings", Json.obj []), ("trigger", Json.num 0)])
      = .ok (Json.obj []) from rfl]
  simp

/-- C10 (amended): the start block always returns an object: a dict
resolved payload is returned unchanged and a non-dict resolved payload
is wrapped as a value object - where the resolution replaces a falsy
trigger (None, 0, "", false, empty containers) by the empty dict
first, so those render as the empty object rather than a wrapped value. -/
theorem c10_start_output_is_object (settings trig : Json) :
    ((startResolvePayload settings trig).isObj = true →
      startRun settings trig = startResolvePayload settings trig)
    ∧ ((startResolvePayload settings trig).isObj = false →
      startRun settings trig = Json.obj [("value", startResolvePayload settings trig)])
    ∧ (settings.getD "payload" .null = .null → trig.truthy = false →
      startResolvePayload settings trig = Json.obj [])
    ∧ (startRun settings trig).isObj = true := by
  refine ⟨?_, ?_, ?_, ?_⟩
  · intro h; simp [startRun, h]
  · intro h; simp [startRun, h]
  · intro hnull htr
    simp [startResolvePayload, hnull, pyOr, htr]
  · rw [show startRun settings trig
        = if (startResolvePayload settings trig).isObj then startResolvePayload settings trig
          else Json.obj [("value", startResolvePayload settings trig)] from rfl]
    cases hp : startResolvePayload settings trig <;> simp [Json.isObj]

/-- C10 witness: the amended theorem applied at concrete inputs - a
truthy non-dict trigger is wrapped, the Hello payload is returned
unchanged. -/
theorem c10_witness :
    (startResolvePayload (Json.obj [("payload", Json.null)]) (Json.str "hi")).isObj = false
    ∧ startRun (Json.obj [("payload", Json.null)]) (Json.str "hi")
        = Json.obj [("value", startResolvePayload (Json.obj [("payload", Json.null)]) (Json.str "hi"))] :=
  ⟨rfl, (c10_start_output_is_object (Json.obj [("payload", Json.null)]) (Json.str "hi")).2.1 rfl⟩

/-- C7 counterexample: the claim states a block invoking the renderer in
strict mode (agent prompts) fails with ConfigError on a missing
variable; in the code the strict pass raises UndefinedError, the
renderer always falls back to the permissive environment and the agent
prompt renders the missing variable as the empty string - no ConfigError
type exists anywhere in the sources. -/
theorem c7_counterexample_agent_prompt_permissive :
    strictRender [TplPart.var ["missing"]] [] = .error "UndefinedError"
    ∧ render_expression [TplPart.var ["missing"]] [] [] = ""
    ∧ agentRenderPrompt [TplPart.var ["missing"]] [] [] = "" :=
  ⟨rfl, rfl, rfl⟩

/-- C7 (amended): `render_expression` evaluates the template strictly
and, on any rendering error (missing variable or attribute), falls back
to the permissive mode where undefined renders as the empty string; the
agent prompt rendering goes through exactly the same renderer, so a
missing variable yields the empty string for every caller rather than a
block failure. -/
theorem c7_renderer_fallback (tpl : Template) (upstream extra : List (String × Json)) :
    (∀ s, strictRender tpl (composeCtx upstream extra) = .ok s →
      render_expression tpl upstream extra = s)
    ∧ (∀ e, strictRender tpl (composeCtx upstream extra) = .error e →
      render_expression tpl upstream extra = permissiveRender tpl (composeCtx upstream extra))
    ∧ agentRenderPrompt tpl upstream extra = render_expression tpl upstream extra
    ∧ (∀ p rest ctx, resolvePath ctx p = none →
      permissiveRender (TplPart.var p :: rest) ctx = permissiveRender rest ctx) := by
  refine ⟨?_, ?_, rfl, ?_⟩
  · intro s h; simp [render_expression, h]
  · intro e h; simp [render_expression, h]
  · intro p rest ctx h; simp [permissiveRender, h]

/-- C7 witness: the amended renderer behavior at a concrete template
with a missing variable and one with a bound variable. -/
theorem c7_witness :
    render_expression [TplPart.var ["missing"]] [] []
      = permissiveRender [TplPart.var ["missing"]] (composeCtx [] [])
    ∧ render_expression [TplPart.lit "Hi ", TplPart.var ["user", "name"]]
        [("user", Json.obj [("name", Json.str "Alice")])] [] = "Hi Alice" :=
  ⟨(c7_renderer_fallback [TplPart.var ["missing"]] [] []).2.1 "UndefinedError" rfl,
   (c7_renderer_fallback [TplPart.lit "Hi ", TplPart.var ["user", "name"]]
      [("user", Json.obj [("name", Json.str "Alice")])] []).1 "Hi Alice" rfl⟩

/-- C8: `safe_eval` (and hence the directly executable `tool.calculator`
block) computes the arithmetic built from numeric literals with
`+ - * / % **` and unary plus/minus (in the rational idealization of
Python numbers, wherever that arithmetic is defined), and rejects every
input whose AST contains a node kind outside the allowed set, so no
non-arithmetic code is ever evaluated. -/
theorem c8_calculator_safe_eval (a : Arith) (v : ℚ) (t : PyAst)
    (hval : a.val = some v) (hbad : containsDisallowed t = true) :
    safe_eval a.toAst = .ok v
    ∧ calculatorEval a.toAst = .ok (Json.obj [("result", Json.num v)])
    ∧ safe_eval t = .error "Disallowed expression" := by
  have hw := walkAllowed_toAst a
  have he := evalAst_toAst a v hval
  have hs : safe_eval a.toAst = .ok v := by simp [safe_eval, hw, he]
  refine ⟨hs, ?_, ?_⟩
  · simp [calculatorEval, hs, Except.map]
  · simp [safe_eval, walkAllowed_eq, hbad]

/-- C8 witness: the agent-scenario expression (12 + 7) * 3 evaluates to
57, and an AST containing a Call node is rejected. -/
theorem c8_witness :
    (Arith.mul (Arith.add (Arith.lit 12) (Arith.lit 7)) (Arith.lit 3)).val = some 57
    ∧ containsDisallowed (PyAst.other "Call") = true
    ∧ safe_eval (Arith.mul (Arith.add (Arith.lit 12) (Arith.lit 7)) (Arith.lit 3)).toAst
        = .ok 57
    ∧ calculatorEval (Arith.mul (Arith.add (Arith.lit 12) (Arith.lit 7)) (Arith.lit 3)).toAst
        = .ok (Json.obj [("result", Json.num 57)])
    ∧ safe_eval (PyAst.other "Call") = .error "Disallowed expression" := by
  have hval : (Arith.mul (Arith.add (Arith.lit 12) (Arith.lit 7)) (Arith.lit 3)).val = some 57 := by
    simp [Arith.val]
    norm_num
  have h := c8_calculator_safe_eval
    (Arith.mul (Arith.add (Arith.lit 12) (Arith.lit 7)) (Arith.lit 3)) 57
    (PyAst.other "Call") hval rfl
  exact ⟨hval, rfl, h.1, h.2.1, h.2.2⟩

/-- C5 counterexample: the claim states the node input carries
`user_id = run.user_id`; in the executed Failure-propagation run the
input recorded for node B has no user_id key at all (executor.py lines
75-80 build only settings, upstream, trigger and node_id; user_id is
passed on the RunContext instead). -/
theorem c5_counterexample_no_user_id :
    (((execBody failDemoGraph run_block_model (Json.obj [])
        (toposort failDemoGraph)).1.nodeRuns.find? (fun r => r.node_id = "B")).map
      (fun r => (r.input_json.getD .null).get "user_id")) = some none
    ∧ (((execBody failDemoGraph run_block_model (Json.obj [])
        (toposort failDemoGraph)).1.nodeRuns.find? (fun r => r.node_id = "B")).map
      (fun r => (r.input_json.getD .null).get "node_id")) = some (some (Json.str "B")) := by
  exact ⟨rfl, rfl⟩

/-- C5 (amended): the input built for every node in the main pass has
exactly `settings` (the node settings), `upstream` (each parent with an
output, restricted to those that produced one), `trigger` (the run
trigger payload) and `node_id`; no `user_id` key is included (the run
user id travels on the RunContext capability bundle instead). -/
theorem c5_node_input_fields (g : Graph) (node : GNode)
    (outputs : List (String × Json)) (trigger : Json) :
    (buildNodeInput g node outputs trigger).get "settings"
      = some (pyOr node.settings (Json.obj []))
    ∧ (buildNodeInput g node outputs trigger).get "upstream"
      = some (Json.obj (computeUpstream g node.id outputs))
    ∧ (buildNodeInput g node outputs trigger).get "trigger" = some trigger
    ∧ (buildNodeInput g node outputs trigger).get "node_id" = some (Json.str node.id)
    ∧ (buildNodeInput g node outputs trigger).get "user_id" = none := by
  by_cases h : (pyStartsWith node.type "agent." && !(toolChildrenOf g node.id).isEmpty) = true
  · simp [buildNodeInput, h, Json.get, lookupEntries]
  · simp [buildNodeInput, h, Json.get, lookupEntries]

/-! ## List counting helpers for the Kahn-loop proofs -/

/-- Filter length is monotone along pointwise implication of
predicates. -/
theorem length_filter_mono {α : Type} (l : List α) (p r : α → Bool)
    (h : ∀ a ∈ l, p a = true → r a = true) :
    (l.filter p).length ≤ (l.filter r).length := by
  induction l with
  | nil => simp
  | cons x xs ih =>
    have ih2 := ih (fun a ha => h a (List.mem_cons_of_mem x ha))
    by_cases hp : p x = true
    · have hr := h x (List.mem_cons_self x xs) hp
      simp [List.filter_cons, hp, hr]
      omega
    · by_cases hr : r x = true <;>
        simp [List.filter_cons, hp, hr] <;> omega

/-- Splitting a filter length along an auxiliary predicate. -/
theorem length_filter_split {α : Type} (l : List α) (p r : α → Bool) :
    (l.filter p).length
      = (l.filter (fun a => p a && r a)).length
        + (l.filter (fun a => p a && !r a)).length := by
  induction l with
  | nil => simp
  | cons x xs ih =>
    by_cases hp : p x = true <;> by_cases hr : r x = true <;>
      simp [List.filter_cons, hp, hr, ih] <;> omega

/-- Filter lengths agree for pointwise equal predicates. -/
theorem length_filter_congr {α : Type} (l : List α) (p r : α → Bool)
    (h : ∀ a ∈ l, p a = r a) :
    (l.filter p).length = (l.filter r).length := by
  induction l with
  | nil => simp
  | cons x xs ih =>
    have ih2 := ih (fun a ha => h a (List.mem_cons_of_mem x ha))
    have hx := h x (List.mem_cons_self x xs)
    by_cases hp : p x = true
    · simp [List.filter_cons, hp, hx ▸ hp, ih2]
    · have : r x = false := by rw [← hx]; simpa using hp
      simp [List.filter_cons, hp, this, ih2]

/-- A zero filter length means no member satisfies the predicate. -/
theorem length_filter_eq_zero {α : Type} (l : List α) (p : α → Bool) :
    (l.filter p).length = 0 ↔ ∀ a ∈ l, p a = false := by
  rw [List.length_eq_zero]
  constructor
  · intro h a ha
    by_contra hp
    have : a ∈ l.filter p := List.mem_filter.2 ⟨ha, by simpa using hp⟩
    simp [h] at this
  · intro h
    apply List.filter_eq_nil_iff.2
    intro a ha
    simp [h a ha]

/-! ## dedupFirst lemmas -/

/-- Membership in the deduplicated list. -/
theorem mem_dedupFirstAux (l : List String) :
    ∀ seen v, v ∈ dedupFirstAux l seen ↔ (v ∈ l ∧ v ∉ seen) := by
  induction l with
  | nil => simp [dedupFirstAux]
  | cons x xs ih =>
    intro seen v
    rw [dedupFirstAux]
    by_cases hx : x ∈ seen
    · rw [if_pos hx, ih]
      constructor
      · rintro ⟨h1, h2⟩
        exact ⟨List.mem_cons_of_mem x h1, h2⟩
      · rintro ⟨h1, h2⟩
        rcases List.mem_cons.1 h1 with rfl | h1
        · exact absurd hx h2
        · exact ⟨h1, h2⟩
    · rw [if_neg hx, List.mem_cons, ih]
      constructor
      · rintro (rfl | ⟨h1, h2⟩)
        · exact ⟨List.mem_cons_self _ _, hx⟩
        · exact ⟨List.mem_cons_of_mem _ h1, fun hm => h2 (List.mem_cons_of_mem _ hm)⟩
      · rintro ⟨h1, h2⟩
        by_cases hvx : v = x
        · exact Or.inl hvx
        · rcases List.mem_cons.1 h1 with rfl | h1
          · exact Or.inl rfl
          · refine Or.inr ⟨h1, fun hs => ?_⟩
            rcases List.mem_cons.1 hs with rfl | hs
            · exact hvx rfl
            · exact h2 hs

/-- Membership in `dedupFirst`. -/
theorem mem_dedupFirst (l : List String) (v : String) :
    v ∈ dedupFirst l ↔ v ∈ l := by
  simp [dedupFirst, mem_dedupFirstAux]

/-- The deduplicated list has no duplicates. -/
theorem dedupFirstAux_nodup (l : List String) : ∀ seen, (dedupFirstAux l seen).Nodup := by
  induction l with
  | nil => intro seen; simp [dedupFirstAux]
  | cons x xs ih =>
    intro seen
    by_cases hx : x ∈ seen
    · simpa [dedupFirstAux, if_pos hx] using ih seen
    · simp only [dedupFirstAux, if_neg hx, List.nodup_cons]
      refine ⟨fun hm => ?_, ih (x :: seen)⟩
      exact ((mem_dedupFirstAux xs (x :: seen) x).1 hm).2 (List.mem_cons_self x seen)

/-- The `dedupFirst` output has no duplicates. -/
theorem dedupFirst_nodup (l : List String) : (dedupFirst l).Nodup :=
  dedupFirstAux_nodup l []

/-- Length bound of the aux deduplication. -/
theorem dedupFirstAux_length_le (l : List String) :
    ∀ seen, (dedupFirstAux l seen).length ≤ l.length := by
  induction l with
  | nil => intro seen; simp [dedupFirstAux]
  | cons x xs ih =>
    intro seen
    by_cases hx : x ∈ seen
    · simp only [dedupFirstAux, if_pos hx]
      exact le_trans (ih seen) (by simp)
    · simpa [dedupFirstAux, if_neg hx] using ih (x :: seen)

/-- The deduplication preserves the length exactly when the list has no
duplicates and avoids `seen`. -/
theorem dedupFirstAux_length_eq_iff (l : List String) :
    ∀ seen, (dedupFirstAux l seen).length = l.length ↔ (l.Nodup ∧ ∀ x ∈ l, x ∉ seen) := by
  induction l with
  | nil => intro seen; simp [dedupFirstAux]
  | cons x xs ih =>
    intro seen
    by_cases hx : x ∈ seen
    · simp only [dedupFirstAux, if_pos hx]
      constructor
      · intro h
        exact absurd h (by
          have := dedupFirstAux_length_le xs seen
          simp only [List.length_cons]
          omega)
      · rintro ⟨-, hall⟩
        exact absurd hx (hall x (List.mem_cons_self x xs))
    · simp only [dedupFirstAux, if_neg hx, List.length_cons, Nat.add_right_cancel_iff, ih,
        List.nodup_cons]
      constructor
      · rintro ⟨hnd, hall⟩
        refine ⟨⟨fun hm => (hall x hm) (List.mem_cons_self x seen), hnd⟩, ?_⟩
        rintro y hy
        rcases List.mem_cons.1 hy with rfl | hy
        · exact hx
        · exact fun hs => (hall y hy) (List.mem_cons_of_mem x hs)
      · rintro ⟨⟨hxxs, hnd⟩, hall⟩
        refine ⟨hnd, fun y hy hs => ?_⟩
        rcases List.mem_cons.1 hs with rfl | hs
        · exact hxxs hy
        · exact (hall y (List.mem_cons_of_mem x hy)) hs

/-- The function `dedupFirst` preserves the length exactly on duplicate-free lists
(the `len(set(ids)) == len(nodes)` check). -/
theorem dedupFirst_length_eq_iff (l : List String) :
    (dedupFirst l).length = l.length ↔ l.Nodup := by
  simp [dedupFirst, dedupFirstAux_length_eq_iff]

/-- Aux form: on a duplicate-free list avoiding `seen`, the
deduplication is the identity. -/
theorem dedupFirstAux_of_nodup :
    ∀ (l : List String), l.Nodup → ∀ seen, (∀ x ∈ l, x ∉ seen) → dedupFirstAux l seen = l := by
  intro l
  induction l with
  | nil => intro _ seen _; rfl
  | cons x xs ih =>
    intro h seen hall
    rcases List.nodup_cons.1 h with ⟨hx, hnd⟩
    have hxs : x ∉ seen := hall x (List.mem_cons_self x xs)
    have hrec : dedupFirstAux xs (x :: seen) = xs := by
      apply ih hnd
      intro y hy hs
      rcases List.mem_cons.1 hs with heq | hs
      · exact hx (heq ▸ hy)
      · exact (hall y (List.mem_cons_of_mem x hy)) hs
    rw [dedupFirstAux, if_neg hxs, hrec]

/-- On a duplicate-free list, `dedupFirst` is the identity. -/
theorem dedupFirst_of_nodup (l : List String) (h : l.Nodup) : dedupFirst l = l :=
  dedupFirstAux_of_nodup l h [] (by simp)

/-- Occurrence counts in a cons cell. -/
theorem occCount_cons (c : String) (cs : List String) (v : String) :
    occCount (c :: cs) v = (if c = v then 1 else 0) + occCount cs v := by
  by_cases h : c = v <;> simp [occCount, List.filter_cons, h] <;> omega

/-- A positive occurrence count is membership. -/
theorem occCount_pos_iff (cs : List String) (v : String) :
    0 < occCount cs v ↔ v ∈ cs := by
  rw [occCount, List.length_pos]
  constructor
  · intro h
    obtain ⟨a, ha⟩ := List.exists_mem_of_ne_nil _ h
    have hm := List.mem_filter.1 ha
    have : a = v := by simpa using hm.2
    exact this ▸ hm.1
  · intro h hnil
    have : v ∈ cs.filter (fun c => c = v) := List.mem_filter.2 ⟨h, by simp⟩
    simp [hnil] at this

/-- Count bounds transfer to the decremented assignment. -/
theorem count_le_decAt (cs : List String) (c : String) (f : String → Int)
    (H : ∀ v, (occCount (c :: cs) v : Int) ≤ f v) :
    ∀ w, (occCount cs w : Int) ≤ decAt f c w := by
  intro w
  have hw := H w
  rw [occCount_cons] at hw
  by_cases hwc : w = c
  · subst hwc
    rw [if_pos rfl] at hw
    simp only [decAt, if_pos rfl]
    omega
  · rw [if_neg (Ne.symm hwc)] at hw
    simp only [decAt, if_neg hwc]
    omega

/-- First component of the child fold: each child occurrence decrements
its in-degree once. -/
theorem foldl_kahnChildStep_fst (cs : List String) :
    ∀ (f : String → Int) (qs : List String) (v : String),
      ((cs.foldl kahnChildStep (f, qs)).1) v = f v - occCount cs v := by
  induction cs with
  | nil => intro f qs v; simp [occCount]
  | cons c cs ih =>
    intro f qs v
    rw [List.foldl_cons]
    have hstep : kahnChildStep (f, qs) c
        = (decAt f c, if f c - 1 = 0 then qs ++ [c] else qs) := rfl
    rw [hstep, ih]
    by_cases hv : v = c
    · subst hv
      have hocc : occCount (v :: cs) v = 1 + occCount cs v := by
        rw [occCount_cons, if_pos rfl]
      rw [hocc]
      simp only [decAt, if_pos rfl]
      push_cast
      omega
    · have hocc : occCount (c :: cs) v = occCount cs v := by
        rw [occCount_cons, if_neg (Ne.symm hv)]
        omega
      rw [hocc]
      simp only [decAt, if_neg hv]

/-- Second component of the child fold: the queue is extended with
`enqList`. -/
theorem foldl_kahnChildStep_snd (cs : List String) :
    ∀ (f : String → Int) (qs : List String),
      ((cs.foldl kahnChildStep (f, qs)).2) = qs ++ enqList cs f := by
  induction cs with
  | nil => intro f qs; simp [enqList]
  | cons c cs ih =>
    intro f qs
    rw [List.foldl_cons]
    have hstep : kahnChildStep (f, qs) c
        = (decAt f c, if f c - 1 = 0 then qs ++ [c] else qs) := rfl
    rw [hstep, ih, enqList]
    by_cases h : f c - 1 = 0
    · rw [if_pos h, if_pos h, List.append_assoc]
      rfl
    · rw [if_neg h, if_neg h, List.nil_append]
      rfl

/-- Members of `enqList` under the count bound: exactly the children
whose in-degree equals their occurrence count (a child hits zero on its
last occurrence). -/
theorem enqList_mem (cs : List String) :
    ∀ (f : String → Int), (∀ v, (occCount cs v : Int) ≤ f v) →
      ∀ v, v ∈ enqList cs f ↔ (0 < occCount cs v ∧ f v = occCount cs v) := by
  induction cs with
  | nil => intro f _ v; simp [enqList, occCount]
  | cons c cs ih =>
    intro f H v
    have H2 := count_le_decAt cs c f H
    have hih := ih _ H2 v
    have hf2 : decAt f c v = if v = c then f c - 1 else f v := rfl
    have hoccc : (occCount cs c : Int) ≤ f c - 1 := by
      have := H2 c
      simpa [decAt] using this
    rw [enqList]
    show v ∈ (if f c - 1 = 0 then [c] else []) ++ enqList cs (decAt f c) ↔ _
    rw [occCount_cons]
    by_cases hz : f c - 1 = 0
    · rw [if_pos hz, List.singleton_append, List.mem_cons, hih, hf2]
      constructor
      · rintro (rfl | ⟨hpos, heq⟩)
        · rw [if_pos rfl]
          have h0 : occCount cs v = 0 := by omega
          constructor
          · omega
          · omega
        · by_cases hvc : v = c
          · subst hvc
            rw [if_pos rfl] at heq
            omega
          · rw [if_neg hvc] at heq
            rw [if_neg (Ne.symm hvc)]
            constructor
            · omega
            · omega
      · rintro ⟨hpos, heq⟩
        by_cases hvc : v = c
        · exact Or.inl hvc
        · right
          rw [if_neg (Ne.symm hvc)] at hpos heq
          rw [if_neg hvc]
          exact ⟨by omega, by omega⟩
    · rw [if_neg hz, List.nil_append, hih, hf2]
      constructor
      · rintro ⟨hpos, heq⟩
        by_cases hvc : v = c
        · subst hvc
          rw [if_pos rfl] at heq
          rw [if_pos rfl]
          constructor
          · omega
          · omega
        · rw [if_neg hvc] at heq
          rw [if_neg (Ne.symm hvc)]
          constructor
          · omega
          · omega
      · rintro ⟨hpos, heq⟩
        by_cases hvc : v = c
        · subst hvc
          rw [if_pos rfl] at hpos heq
          rw [if_pos rfl]
          constructor
          · omega
          · omega
        · rw [if_neg (Ne.symm hvc)] at hpos heq
          rw [if_neg hvc]
          exact ⟨by omega, by omega⟩

/-- The list `enqList` has no duplicates under the count bound. -/
theorem enqList_nodup (cs : List String) :
    ∀ (f : String → Int), (∀ v, (occCount cs v : Int) ≤ f v) →
      (enqList cs f).Nodup := by
  induction cs with
  | nil => intro f _; simp [enqList]
  | cons c cs ih =>
    intro f H
    have H2 := count_le_decAt cs c f H
    rw [enqList]
    show ((if f c - 1 = 0 then [c] else []) ++ enqList cs (decAt f c)).Nodup
    by_cases hz : f c - 1 = 0
    · rw [if_pos hz, List.singleton_append, List.nodup_cons]
      refine ⟨fun hm => ?_, ih _ H2⟩
      have := (enqList_mem cs _ H2 c).1 hm
      have hd : decAt f c c = f c - 1 := by simp [decAt]
      rw [hd] at this
      omega
    · rw [if_neg hz, List.nil_append]
      exact ih _ H2

/-- All `enqList` members are children. -/
theorem enqList_subset (cs : List String) (f : String → Int)
    (H : ∀ v, (occCount cs v : Int) ≤ f v) :
    ∀ v ∈ enqList cs f, v ∈ cs := by
  intro v hv
  have := (enqList_mem cs f H v).1 hv
  exact (occCount_pos_iff cs v).1 this.1

/-- Length bound for `enqList`. -/
theorem enqList_length_le (cs : List String) :
    ∀ f, (enqList cs f).length ≤ cs.length := by
  induction cs with
  | nil => intro f; simp [enqList]
  | cons c cs ih =>
    intro f
    rw [enqList]
    by_cases hz : f c - 1 = 0
    · rw [if_pos hz, List.singleton_append, List.length_cons, List.length_cons]
      exact Nat.succ_le_succ (ih _)
    · rw [if_neg hz, List.nil_append, List.length_cons]
      exact le_trans (ih _) (Nat.le_succ _)

/-! ## Weight lemmas for loop termination -/

/-- Sums of pointwise-equal maps agree. -/
theorem sum_map_congr {α : Type} (l : List α) (f g : α → Nat)
    (h : ∀ a ∈ l, f a = g a) : (l.map f).sum = (l.map g).sum := by
  induction l with
  | nil => simp
  | cons x xs ih =>
    simp only [List.map_cons, List.sum_cons, h x (List.mem_cons_self x xs),
      ih (fun a ha => h a (List.mem_cons_of_mem x ha))]

/-- Effect of one decrement on the weight, over duplicate-free keys. -/
theorem indegWeight_decAt (keys : List String) (hnd : keys.Nodup)
    (c : String) (hc : c ∈ keys) (f : String → Int) :
    indegWeight keys (decAt f c) + (f c + 1).toNat
      = indegWeight keys f + (f c - 1 + 1).toNat := by
  induction keys with
  | nil => simp at hc
  | cons k ks ih =>
    rcases List.nodup_cons.1 hnd with ⟨hk, hksnd⟩
    by_cases hck : c = k
    · subst hck
      have hmap : (ks.map (fun v => (decAt f c v + 1).toNat))
          = ks.map (fun v => (f v + 1).toNat) := by
        apply List.map_congr_left
        intro v hv
        have hvc : v ≠ c := fun h => hk (h ▸ hv)
        simp [decAt, hvc]
      simp only [indegWeight, List.map_cons, List.sum_cons, hmap]
      have hkk : decAt f c c = f c - 1 := by simp [decAt]
      rw [hkk]
      omega
    · have hcks : c ∈ ks := by
        rcases List.mem_cons.1 hc with h | h
        · exact absurd h hck
        · exact h
      have hkc : k ≠ c := Ne.symm hck
      have hterm : decAt f c k = f k := by simp [decAt, hkc]
      have ihh := ih hksnd hcks
      simp only [indegWeight, List.map_cons, List.sum_cons, hterm] at *
      omega

/-- The first component of the child fold is `afterDec`. -/
theorem foldl_fst_afterDec (cs : List String) :
    ∀ (f : String → Int) (qs : List String),
      (cs.foldl kahnChildStep (f, qs)).1 = afterDec cs f := by
  induction cs with
  | nil => intro f qs; rfl
  | cons c cs ih =>
    intro f qs
    rw [List.foldl_cons]
    exact ih (decAt f c) _

/-- Processing a child list cannot increase the weight plus the number
of enqueued nodes. -/
theorem weight_after_children (cs : List String) :
    ∀ (keys : List String) (f : String → Int), keys.Nodup → (∀ c ∈ cs, c ∈ keys) →
      indegWeight keys (afterDec cs f) + (enqList cs f).length ≤ indegWeight keys f := by
  induction cs with
  | nil => intro keys f _ _; simp [afterDec, enqList]
  | cons c cs ih =>
    intro keys f hnd hsub
    have hc : c ∈ keys := hsub c (List.mem_cons_self c cs)
    have hupd := indegWeight_decAt keys hnd c hc f
    have ihh := ih keys (decAt f c) hnd (fun x hx => hsub x (List.mem_cons_of_mem c hx))
    show indegWeight keys (afterDec cs (decAt f c))
        + ((if f c - 1 = 0 then [c] else []) ++ enqList cs (decAt f c)).length
      ≤ indegWeight keys f
    by_cases hz : f c - 1 = 0
    · rw [if_pos hz]
      simp only [List.singleton_append, List.length_cons]
      omega
    · rw [if_neg hz]
      simp only [List.nil_append]
      omega

/-! ## Bridging occurrence counts and remaining in-degrees -/

/-- Length of a filtered map. -/
theorem length_filter_map {α β : Type} (l : List α) (f : α → β) (p : β → Bool) :
    ((l.map f).filter p).length = (l.filter (fun a => p (f a))).length := by
  induction l with
  | nil => simp
  | cons x xs ih =>
    by_cases h : p (f x) = true <;> simp [List.filter_cons, h, ih]

/-- Length of a double filter. -/
theorem length_filter_filter {α : Type} (l : List α) (p r : α → Bool) :
    ((l.filter p).filter r).length = (l.filter (fun a => p a && r a)).length := by
  rw [List.filter_filter]
  apply length_filter_congr
  intro a _
  exact Bool.and_comm _ _

/-- Occurrences among the children of `q` are the non-tool edges from
`q`. -/
theorem occCount_childrenOf (g : Graph) (q v : String) :
    occCount (childrenOf g q) v
      = ((controlEdges g).filter
          (fun e => decide (e.from_node = q) && decide (e.to_node = v))).length := by
  rw [occCount, childrenOf, length_filter_map, length_filter_filter]

/-- Popping `q` decrements each remaining in-degree by the number of
non-tool edges from `q` into it. -/
theorem remIndeg_append (g : Graph) (order : List String) (q : String)
    (hq : q ∉ order) (v : String) :
    remIndeg g (order ++ [q]) v
      = remIndeg g order v - occCount (childrenOf g q) v := by
  rw [occCount_childrenOf]
  rw [remIndeg, remIndeg]
  have hsplit := length_filter_split (controlEdges g)
    (fun e => decide (e.to_node = v ∧ e.from_node ∉ order))
    (fun e => decide (e.from_node = q))
  have hc1 : ((controlEdges g).filter
      (fun e => decide (e.to_node = v ∧ e.from_node ∉ order) && decide (e.from_node = q))).length
      = ((controlEdges g).filter
          (fun e => decide (e.from_node = q) && decide (e.to_node = v))).length := by
    apply length_filter_congr
    intro e he
    rcases Decidable.em (e.from_node = q) with hfq | hfq
    · rcases Decidable.em (e.to_node = v) with htv | htv <;>
        simp [hfq, htv, hq]
    · simp [hfq]
  have hc2 : ((controlEdges g).filter
      (fun e => decide (e.to_node = v ∧ e.from_node ∉ order) && !decide (e.from_node = q))).length
      = ((controlEdges g).filter
          (fun e => decide (e.to_node = v ∧ e.from_node ∉ order ++ [q]))).length := by
    apply length_filter_congr
    intro e he
    rcases Decidable.em (e.from_node = q) with hfq | hfq
    · simp [hfq, hq, List.mem_append]
    · rcases Decidable.em (e.to_node = v) with htv | htv <;>
        rcases Decidable.em (e.from_node ∈ order) with hfo | hfo <;>
        simp [hfq, htv, hfo, List.mem_append]
  rw [hc1, hc2] at hsplit
  push_cast
  omega

/-! ## The Kahn loop invariant -/

/-- Index of a freshly appended element. -/
theorem indexOf_append_self (l : List String) (q : String) (h : q ∉ l) :
    (l ++ [q]).indexOf q = l.length := by
  induction l with
  | nil => simp
  | cons x xs ih =>
    have hqx : q ≠ x := fun he => h (he ▸ List.mem_cons_self x xs)
    have hq : q ∉ xs := fun hm => h (List.mem_cons_of_mem x hm)
    simp only [List.cons_append, List.length_cons]
    rw [List.indexOf_cons_ne _ (Ne.symm hqx), ih hq]

/-- Children of any node lie among the node ids of a graph with
well-formed edges. -/
theorem childrenOf_subset_nodeIds (g : Graph) (hwf : EdgesWF g) (q : String) :
    ∀ v ∈ childrenOf g q, v ∈ nodeIds g := by
  intro v hv
  rw [childrenOf] at hv
  obtain ⟨e, he, rfl⟩ := List.mem_map.1 hv
  have he2 := List.mem_filter.1 he
  have he3 := List.mem_filter.1 he2.1
  exact (hwf e he3.1).2

/-- The loop invariant holds at the initial state of `Graph._toposort`. -/
theorem kahnInv_init (g : Graph) : KahnInv g (initIndeg g) (initQueue g) [] := by
  refine ⟨fun v => rfl, ?_, List.nodup_nil, ?_, ?_, ?_, ?_, ?_, ?_, ?_⟩
  · exact (dedupFirst_nodup _).filter _
  · intro v _
    simp
  · intro v hv
    exact (List.mem_filter.1 hv).1
  · intro v hv
    have := (List.mem_filter.1 hv).2
    simpa using this
  · intro v hv
    simp at hv
  · intro v hv
    simp at hv
  · intro v hv h0
    right
    exact List.mem_filter.2 ⟨hv, by simpa using h0⟩
  · intro e he hto
    simp at hto

/-- The occurrence count of each child of a queued node is bounded by
its tracked in-degree. -/
theorem count_children_le_indeg (g : Graph) (indeg : String → Int)
    (order : List String) (q : String) (hq : q ∉ order)
    (hind : ∀ v, indeg v = remIndeg g order v) (v : String) :
    (occCount (childrenOf g q) v : Int) ≤ indeg v := by
  rw [hind v, occCount_childrenOf, remIndeg]
  have := length_filter_mono (controlEdges g)
    (fun e => decide (e.from_node = q) && decide (e.to_node = v))
    (fun e => decide (e.to_node = v ∧ e.from_node ∉ order))
    (by
      intro e he hpe
      simp only [Bool.and_eq_true, decide_eq_true_eq] at hpe
      simp only [decide_eq_true_eq]
      exact ⟨hpe.2, hpe.1 ▸ hq⟩)
  exact_mod_cast this

/-- One iteration of the Kahn loop preserves the invariant: pop `q`,
decrement its children, enqueue those reaching zero, append `q` to the
order. -/
theorem kahnStep_inv (g : Graph) (hwf : EdgesWF g)
    (indeg : String → Int) (q : String) (qs order : List String)
    (hinv : KahnInv g indeg (q :: qs) order) :
    KahnInv g ((childrenOf g q).foldl kahnChildStep (indeg, qs)).1
      ((childrenOf g q).foldl kahnChildStep (indeg, qs)).2 (order ++ [q]) := by
  have hqmem : q ∈ q :: qs := List.mem_cons_self q qs
  have hqkeys : q ∈ kahnKeys g := hinv.queue_keys q hqmem
  have hqzero : indeg q = 0 := hinv.queue_zero q hqmem
  have hqorder : q ∉ order := hinv.queue_disj q hqmem
  have hqqs : q ∉ qs := (List.nodup_cons.1 hinv.queue_nd).1
  have hqsnd : qs.Nodup := (List.nodup_cons.1 hinv.queue_nd).2
  have Hcount : ∀ v, (occCount (childrenOf g q) v : Int) ≤ indeg v :=
    count_children_le_indeg g indeg order q hqorder hinv.indeg_eq
  have hfst : ∀ v, (((childrenOf g q).foldl kahnChildStep (indeg, qs)).1) v
      = indeg v - occCount (childrenOf g q) v :=
    foldl_kahnChildStep_fst (childrenOf g q) indeg qs
  have hsnd : ((childrenOf g q).foldl kahnChildStep (indeg, qs)).2
      = qs ++ enqList (childrenOf g q) indeg :=
    foldl_kahnChildStep_snd (childrenOf g q) indeg qs
  have hrem : ∀ v, remIndeg g (order ++ [q]) v
      = remIndeg g order v - occCount (childrenOf g q) v :=
    fun v => remIndeg_append g order q hqorder v
  have henq_mem : ∀ v, v ∈ enqList (childrenOf g q) indeg
      ↔ (0 < occCount (childrenOf g q) v ∧ indeg v = occCount (childrenOf g q) v) :=
    enqList_mem (childrenOf g q) indeg Hcount
  have hnewindeg : ∀ v, (((childrenOf g q).foldl kahnChildStep (indeg, qs)).1) v
      = remIndeg g (order ++ [q]) v := by
    intro v
    rw [hfst v, hrem v, hinv.indeg_eq v]
  refine ⟨hnewindeg, ?_, ?_, ?_, ?_, ?_, ?_, ?_, ?_, ?_⟩
  · rw [hsnd, List.nodup_append]
    refine ⟨hqsnd, enqList_nodup _ indeg Hcount, ?_⟩
    intro v hv hv2
    have h1 := hinv.queue_zero v (List.mem_cons_of_mem q hv)
    have h2 := (henq_mem v).1 hv2
    omega
  · rw [List.nodup_append]
    refine ⟨hinv.order_nd, List.nodup_singleton q, ?_⟩
    intro v hv hv2
    simp only [List.mem_singleton] at hv2
    exact hqorder (hv2 ▸ hv)
  · rw [hsnd]
    intro v hv hvord
    rcases List.mem_append.1 hv with hv1 | hv1
    · rcases List.mem_append.1 hvord with ho | ho
      · exact hinv.queue_disj v (List.mem_cons_of_mem q hv1) ho
      · simp only [List.mem_singleton] at ho
        subst ho
        exact hqqs hv1
    · have h2 := (henq_mem v).1 hv1
      rcases List.mem_append.1 hvord with ho | ho
      · have h3 := hinv.order_rem v ho
        have h4 := hinv.indeg_eq v
        omega
      · simp only [List.mem_singleton] at ho
        subst ho
        omega
  · rw [hsnd]
    intro v hv
    rcases List.mem_append.1 hv with hv | hv
    · exact hinv.queue_keys v (List.mem_cons_of_mem q hv)
    · have h2 := enqList_subset _ indeg Hcount v hv
      have h3 := childrenOf_subset_nodeIds g hwf q v h2
      exact (mem_dedupFirst _ v).2 h3
  · rw [hsnd]
    intro v hv
    rw [hfst v]
    rcases List.mem_append.1 hv with hv | hv
    · have h1 := hinv.queue_zero v (List.mem_cons_of_mem q hv)
      have h2 := Hcount v
      omega
    · have h2 := (henq_mem v).1 hv
      omega
  · intro v hv
    rcases List.mem_append.1 hv with hv | hv
    · exact hinv.order_keys v hv
    · simp only [List.mem_singleton] at hv
      subst hv
      exact hqkeys
  · intro v hv
    rw [hrem v]
    rcases List.mem_append.1 hv with hv | hv
    · have h1 := hinv.order_rem v hv
      have h2 := Hcount v
      have h3 := hinv.indeg_eq v
      omega
    · simp only [List.mem_singleton] at hv
      subst hv
      have h2 := Hcount v
      have h3 := hinv.indeg_eq v
      omega
  · intro v hvkeys h0
    rw [hfst v] at h0
    by_cases hocc : 0 < occCount (childrenOf g q) v
    · right
      rw [hsnd]
      exact List.mem_append.2 (Or.inr ((henq_mem v).2 ⟨hocc, by omega⟩))
    · have hiz : indeg v = 0 := by omega
      rcases hinv.zero_covered v hvkeys hiz with ho | hq2
      · exact Or.inl (List.mem_append.2 (Or.inl ho))
      · rcases List.mem_cons.1 hq2 with rfl | hq3
        · exact Or.inl (List.mem_append.2 (Or.inr (by simp)))
        · right
          rw [hsnd]
          exact List.mem_append.2 (Or.inl hq3)
  · intro e he hto
    rcases List.mem_append.1 hto with hto | hto
    · have h1 := hinv.preced e he hto
      refine ⟨List.mem_append.2 (Or.inl h1.1), ?_⟩
      rw [List.indexOf_append_of_mem h1.1, List.indexOf_append_of_mem hto]
      exact h1.2
    · simp only [List.mem_singleton] at hto
      have hq0 : remIndeg g order q = 0 := by
        have := hinv.indeg_eq q
        omega
      have hlen0 : ((controlEdges g).filter
          (fun e2 => decide (e2.to_node = q ∧ e2.from_node ∉ order))).length = 0 := by
        rw [remIndeg] at hq0
        exact_mod_cast hq0
      have hfilt := (length_filter_eq_zero _ _).1 hlen0
      have hfm : e.from_node ∈ order := by
        by_contra hno
        have h2 := hfilt e he
        rw [decide_eq_false_iff_not] at h2
        exact h2 ⟨hto, hno⟩
      refine ⟨List.mem_append.2 (Or.inl hfm), ?_⟩
      rw [List.indexOf_append_of_mem hfm, hto, indexOf_append_self order q hqorder]
      exact List.indexOf_lt_length.2 hfm

/-- Unfolding one loop iteration. -/
theorem kahnRun_succ (g : Graph) (f : Nat) (indeg : String → Int)
    (q : String) (qs order : List String) :
    kahnRun g (f + 1) indeg (q :: qs) order
      = kahnRun g f ((childrenOf g q).foldl kahnChildStep (indeg, qs)).1
          ((childrenOf g q).foldl kahnChildStep (indeg, qs)).2 (order ++ [q]) := rfl

/-- Soundness of the loop from any invariant state: the result extends
the accumulated order, has no duplicates, stays within the node ids and
respects every non-tool edge whose target it contains. -/
theorem kahnRun_props (g : Graph) (hwf : EdgesWF g) :
    ∀ (f : Nat) (indeg : String → Int) (queue order : List String),
      KahnInv g indeg queue order →
      (∃ ext, kahnRun g f indeg queue order = order ++ ext)
        ∧ (kahnRun g f indeg queue order).Nodup
        ∧ (∀ v ∈ kahnRun g f indeg queue order, v ∈ kahnKeys g)
        ∧ (∀ e ∈ controlEdges g, e.to_node ∈ kahnRun g f indeg queue order →
            e.from_node ∈ kahnRun g f indeg queue order
            ∧ (kahnRun g f indeg queue order).indexOf e.from_node
                < (kahnRun g f indeg queue order).indexOf e.to_node) := by
  intro f
  induction f with
  | zero =>
    intro indeg queue order hinv
    exact ⟨⟨[], by simp [kahnRun]⟩, hinv.order_nd, hinv.order_keys, hinv.preced⟩
  | succ f ih =>
    intro indeg queue order hinv
    cases queue with
    | nil =>
      exact ⟨⟨[], by simp [kahnRun]⟩, hinv.order_nd, hinv.order_keys, hinv.preced⟩
    | cons q qs =>
      rw [kahnRun_succ]
      have hstep := kahnStep_inv g hwf indeg q qs order hinv
      obtain ⟨⟨ext, hext⟩, hnd, hkeys, hprec⟩ := ih _ _ _ hstep
      refine ⟨⟨q :: ext, ?_⟩, hnd, hkeys, hprec⟩
      rw [hext, List.append_assoc]
      rfl

/-- If the queue is empty and the control subgraph is acyclic, every
node id has been popped.  The unpopped nodes would otherwise all retain
an unpopped predecessor, yielding a cycle by pigeonhole. -/
theorem exists_cycle_of_preds (R : Finset String) (step : String → String → Prop)
    (hne : R.Nonempty) (hpred : ∀ v ∈ R, ∃ u ∈ R, step u v) :
    ∃ v, Relation.TransGen step v v := by
  classical
  choose pf hpf1 hpf2 using hpred
  obtain ⟨v0, hv0⟩ := hne
  let F : {x // x ∈ R} → {x // x ∈ R} := fun x => ⟨pf x.1 x.2, hpf1 x.1 x.2⟩
  let seq : Nat → {x // x ∈ R} := fun n => F^[n] ⟨v0, hv0⟩
  have hstep : ∀ n, step (seq (n + 1)).1 (seq n).1 := by
    intro n
    have : seq (n + 1) = F (seq n) := Function.iterate_succ_apply' F n ⟨v0, hv0⟩
    rw [this]
    exact hpf2 (seq n).1 (seq n).2
  have hchain : ∀ i j, i < j → Relation.TransGen step (seq j).1 (seq i).1 := by
    intro i j hij
    induction j with
    | zero => omega
    | succ j ihj =>
      rcases Nat.lt_or_ge i j with h | h
      · exact (Relation.TransGen.head (hstep j) (ihj h))
      · have : i = j := by omega
        subst this
        exact Relation.TransGen.single (hstep i)
  have hcard : Fintype.card {x // x ∈ R} < Fintype.card (Fin (R.card + 1)) := by
    simp [Fintype.card_coe]
  obtain ⟨i, j, hij, heq⟩ :=
    Fintype.exists_ne_map_eq_of_card_lt (fun n : Fin (R.card + 1) => seq n.1) hcard
  rcases lt_trichotomy i.1 j.1 with h | h | h
  · refine ⟨(seq i.1).1, ?_⟩
    have := hchain i.1 j.1 h
    rw [← heq] at this
    exact this
  · exact absurd (Fin.ext h) hij
  · refine ⟨(seq j.1).1, ?_⟩
    have := hchain j.1 i.1 h
    rw [heq] at this
    exact this

/-- With an empty queue and an acyclic control subgraph, the invariant
forces every node id into the order. -/
theorem all_popped_of_empty_queue (g : Graph) (hwf : EdgesWF g)
    (indeg : String → Int) (order : List String)
    (hinv : KahnInv g indeg [] order) (hacyc : ControlAcyclic g) :
    ∀ v ∈ kahnKeys g, v ∈ order := by
  by_contra hcon
  push_neg at hcon
  obtain ⟨v0, hv0keys, hv0ord⟩ := hcon
  classical
  set R : Finset String := ((kahnKeys g).filter (fun v => decide (v ∉ order))).toFinset with hR
  have hmemR : ∀ v, v ∈ R ↔ (v ∈ kahnKeys g ∧ v ∉ order) := by
    intro v
    rw [hR]
    simp [List.mem_filter]
  have hne : R.Nonempty := ⟨v0, (hmemR v0).2 ⟨hv0keys, hv0ord⟩⟩
  have hpred : ∀ v ∈ R, ∃ u ∈ R, ctrlStep g u v := by
    intro v hv
    obtain ⟨hvkeys, hvord⟩ := (hmemR v).1 hv
    have hnz : indeg v ≠ 0 := by
      intro h0
      rcases hinv.zero_covered v hvkeys h0 with h | h
      · exact hvord h
      · simp at h
    have hrem : remIndeg g order v ≠ 0 := by
      rw [← hinv.indeg_eq v]
      exact hnz
    have hlen : ((controlEdges g).filter
        (fun e => decide (e.to_node = v ∧ e.from_node ∉ order))).length ≠ 0 := by
      intro h
      apply hrem
      rw [remIndeg]
      exact_mod_cast h
    have hnil : ((controlEdges g).filter
        (fun e => decide (e.to_node = v ∧ e.from_node ∉ order))) ≠ [] := by
      intro hn
      apply hlen
      rw [hn]
      rfl
    obtain ⟨e, he⟩ := List.exists_mem_of_ne_nil _ hnil
    have he2 := List.mem_filter.1 he
    have hdec := he2.2
    rw [decide_eq_true_eq] at hdec
    have heedges : e ∈ g.edges := (List.mem_filter.1 he2.1).1
    have hufrom : e.from_node ∈ kahnKeys g :=
      (mem_dedupFirst _ _).2 (hwf e heedges).1
    refine ⟨e.from_node, (hmemR _).2 ⟨hufrom, hdec.2⟩, ⟨e, he2.1, rfl, hdec.1⟩⟩
  obtain ⟨v, hv⟩ := exists_cycle_of_preds R (ctrlStep g) hne hpred
  exact hacyc v hv

/-- Completeness of the loop: with enough fuel, an invariant state and
an acyclic control subgraph, every node id ends up in the result. -/
theorem kahnRun_complete (g : Graph) (hwf : EdgesWF g) (hacyc : ControlAcyclic g) :
    ∀ (f : Nat) (indeg : String → Int) (queue order : List String),
      KahnInv g indeg queue order →
      indegWeight (kahnKeys g) indeg + queue.length < f →
      ∀ v ∈ kahnKeys g, v ∈ kahnRun g f indeg queue order := by
  intro f
  induction f with
  | zero =>
    intro indeg queue order _ hfuel
    omega
  | succ f ih =>
    intro indeg queue order hinv hfuel
    cases queue with
    | nil =>
      intro v hv
      have := all_popped_of_empty_queue g hwf indeg order hinv hacyc v hv
      simpa [kahnRun] using this
    | cons q qs =>
      rw [kahnRun_succ]
      have hstep := kahnStep_inv g hwf indeg q qs order hinv
      have hkeysnd : (kahnKeys g).Nodup := dedupFirst_nodup _
      have hcssub : ∀ c ∈ childrenOf g q, c ∈ kahnKeys g := by
        intro c hc
        exact (mem_dedupFirst _ _).2 (childrenOf_subset_nodeIds g hwf q c hc)
      have hw := weight_after_children (childrenOf g q) (kahnKeys g) indeg hkeysnd hcssub
      have hfst := foldl_fst_afterDec (childrenOf g q) indeg qs
      have hsnd := foldl_kahnChildStep_snd (childrenOf g q) indeg qs
      apply ih _ _ _ hstep
      rw [hfst, hsnd]
      simp only [List.length_append, List.length_cons] at *
      omega

/-- Soundness of `toposort`: no duplicates, only node ids, and every
non-tool edge whose target appears has its origin earlier. -/
theorem toposort_props (g : Graph) (hwf : EdgesWF g) :
    (toposort g).Nodup
    ∧ (∀ v ∈ toposort g, v ∈ kahnKeys g)
    ∧ (∀ e ∈ controlEdges g, e.to_node ∈ toposort g →
        e.from_node ∈ toposort g
        ∧ (toposort g).indexOf e.from_node < (toposort g).indexOf e.to_node) := by
  have h := kahnRun_props g hwf (kahnFuel g) (initIndeg g) (initQueue g) [] (kahnInv_init g)
  exact ⟨h.2.1, h.2.2.1, h.2.2.2⟩

/-- Completeness of `toposort`: on an acyclic control subgraph every
node id appears in the order. -/
theorem toposort_complete (g : Graph) (hwf : EdgesWF g) (hacyc : ControlAcyclic g) :
    ∀ v ∈ kahnKeys g, v ∈ toposort g := by
  apply kahnRun_complete g hwf hacyc (kahnFuel g) (initIndeg g) (initQueue g) []
    (kahnInv_init g)
  rw [kahnFuel]
  omega

/-- Transitive control reachability is reflected by strictly increasing
positions in an order that respects every control edge present. -/
theorem transGen_indexOf_lt (g : Graph) (res : List String)
    (hall : ∀ e ∈ controlEdges g, e.to_node ∈ res)
    (hprec : ∀ e ∈ controlEdges g, e.to_node ∈ res →
      e.from_node ∈ res ∧ res.indexOf e.from_node < res.indexOf e.to_node) :
    ∀ a b, Relation.TransGen (ctrlStep g) a b → res.indexOf a < res.indexOf b := by
  intro a b h
  induction h with
  | single hstep =>
    obtain ⟨e, he, hf, ht⟩ := hstep
    have h2 := (hprec e he (hall e he)).2
    rw [hf, ht] at h2
    exact h2
  | tail hsteps hstep ih =>
    obtain ⟨e, he, hf, ht⟩ := hstep
    have h2 := (hprec e he (hall e he)).2
    rw [hf, ht] at h2
    exact lt_trans ih h2

/-- Acceptance of the cycle check is exactly control acyclicity. -/
theorem toposort_length_iff (g : Graph) (hnd : (nodeIds g).Nodup) (hwf : EdgesWF g) :
    (toposort g).length = g.nodes.length ↔ ControlAcyclic g := by
  have hkeys : kahnKeys g = nodeIds g := dedupFirst_of_nodup _ hnd
  have hkeyslen : (kahnKeys g).length = g.nodes.length := by
    rw [hkeys, nodeIds, List.length_map]
  have hprops := toposort_props g hwf
  have hkeysnd : (kahnKeys g).Nodup := dedupFirst_nodup _
  constructor
  · intro hlen
    have hsub : ∀ v ∈ kahnKeys g, v ∈ toposort g := by
      have hsubfin : (toposort g).toFinset ⊆ (kahnKeys g).toFinset := by
        intro a ha
        rw [List.mem_toFinset] at ha ⊢
        exact hprops.2.1 a ha
      have hcard : ((kahnKeys g).toFinset).card ≤ ((toposort g).toFinset).card := by
        rw [List.toFinset_card_of_nodup hprops.1, List.toFinset_card_of_nodup hkeysnd]
        omega
      have := Finset.eq_of_subset_of_card_le hsubfin hcard
      intro v hv
      have : v ∈ (toposort g).toFinset := by
        rw [this, List.mem_toFinset]
        exact hv
      rwa [List.mem_toFinset] at this
    intro v hcyc
    have hall : ∀ e ∈ controlEdges g, e.to_node ∈ toposort g := by
      intro e he
      apply hsub
      rw [hkeys]
      exact (hwf e (List.mem_filter.1 he).1).2
    have := transGen_indexOf_lt g (toposort g) hall hprops.2.2 v v hcyc
    omega
  · intro hacyc
    have hsub := toposort_complete g hwf hacyc
    have hsubfin : (kahnKeys g).toFinset ⊆ (toposort g).toFinset := by
      intro a ha
      rw [List.mem_toFinset] at ha ⊢
      exact hsub a ha
    have hsubfin2 : (toposort g).toFinset ⊆ (kahnKeys g).toFinset := by
      intro a ha
      rw [List.mem_toFinset] at ha ⊢
      exact hprops.2.1 a ha
    have heq := Finset.Subset.antisymm hsubfin hsubfin2
    have hlen : (toposort g).length = (kahnKeys g).length := by
      rw [← List.toFinset_card_of_nodup hprops.1, ← List.toFinset_card_of_nodup hkeysnd, heq]
    rw [hlen, hkeyslen]

/-- Validation succeeds exactly on graphs with unique node ids,
well-formed edge endpoints and an acyclic control subgraph; the returned
order is always the `toposort` order. -/
theorem validateGraph_ok_iff (g : Graph) :
    (∃ o, validateGraph g = .ok o)
      ↔ ((nodeIds g).Nodup ∧ EdgesWF g ∧ ControlAcyclic g) := by
  have hidlen : (nodeIds g).length = g.nodes.length := by
    rw [nodeIds, List.length_map]
  constructor
  · rintro ⟨o, ho⟩
    rw [validateGraph] at ho
    by_cases hdup : (dedupFirst (nodeIds g)).length ≠ g.nodes.length
    · rw [if_pos hdup] at ho
      exact absurd ho (by simp)
    · rw [if_neg hdup] at ho
      push_neg at hdup
      have hnd : (nodeIds g).Nodup := by
        rw [← dedupFirst_length_eq_iff, hdup, hidlen]
      refine ⟨hnd, ?_, ?_⟩
      all_goals {
        cases hfind : g.edges.find? (fun e =>
            ¬ ((nodeIds g).contains e.from_node ∧ (nodeIds g).contains e.to_node)) with
        | some e =>
          rw [hfind] at ho
          exact absurd ho (by simp)
        | none =>
          rw [hfind] at ho
          have hwf : EdgesWF g := by
            intro e he
            have := List.find?_eq_none.1 hfind e he
            simp only [decide_not, Bool.not_eq_true', decide_eq_false_iff_not, not_not] at this
            rcases this with ⟨h1, h2⟩
            exact ⟨by simpa using h1, by simpa using h2⟩
          first
          | exact hwf
          | {
              rw [toposortChecked] at ho
              by_cases hlen : (toposort g).length ≠ g.nodes.length
              · rw [if_pos hlen] at ho
                exact absurd ho (by simp)
              · push_neg at hlen
                exact (toposort_length_iff g hnd hwf).1 hlen
            }
      }
  · rintro ⟨hnd, hwf, hacyc⟩
    have hdup : ¬ (dedupFirst (nodeIds g)).length ≠ g.nodes.length := by
      rw [dedupFirst_of_nodup _ hnd, hidlen]
      simp
    have hfind : g.edges.find? (fun e =>
        ¬ ((nodeIds g).contains e.from_node ∧ (nodeIds g).contains e.to_node)) = none := by
      rw [List.find?_eq_none]
      intro e he
      have h1 := (hwf e he).1
      have h2 := (hwf e he).2
      simp [h1, h2]
    rw [validateGraph, if_neg hdup, hfind, toposortChecked]
    have hlen := (toposort_length_iff g hnd hwf).2 hacyc
    rw [if_neg (by omega)]
    exact ⟨toposort g, rfl⟩

/-- A successful validation returns exactly the `toposort` order. -/
theorem validateGraph_ok_eq (g : Graph) (o : List String)
    (h : validateGraph g = .ok o) : o = toposort g := by
  rw [validateGraph] at h
  by_cases hdup : (dedupFirst (nodeIds g)).length ≠ g.nodes.length
  · rw [if_pos hdup] at h
    exact absurd h (by simp)
  · rw [if_neg hdup] at h
    cases hfind : g.edges.find? (fun e =>
        ¬ ((nodeIds g).contains e.from_node ∧ (nodeIds g).contains e.to_node)) with
    | some e =>
      rw [hfind] at h
      exact absurd h (by simp)
    | none =>
      rw [hfind, toposortChecked] at h
      by_cases hlen : (toposort g).length ≠ g.nodes.length
      · rw [if_pos hlen] at h
        exact absurd h (by simp)
      · rw [if_neg hlen] at h
        have := Except.ok.inj h
        exact this.symm

/-- Removing tool edges does not change the processed edge set. -/
theorem controlEdges_dropToolEdges (g : Graph) :
    controlEdges (dropToolEdges g) = controlEdges g := by
  rw [controlEdges, controlEdges, dropToolEdges]
  rw [List.filter_filter]
  apply List.filter_congr
  intro e _
  exact Bool.and_self _

/-- The Kahn loop only consults the graph through `childrenOf`. -/
theorem kahnRun_congr_children (g g2 : Graph)
    (hch : ∀ u, childrenOf g u = childrenOf g2 u) :
    ∀ (f : Nat) (indeg : String → Int) (queue order : List String),
      kahnRun g f indeg queue order = kahnRun g2 f indeg queue order := by
  intro f
  induction f with
  | zero => intro indeg queue order; rfl
  | succ f ih =>
    intro indeg queue order
    cases queue with
    | nil => rfl
    | cons q qs =>
      rw [kahnRun_succ, kahnRun_succ, hch q]
      exact ih _ _ _

/-- The order `toposort` ignores tool edges entirely. -/
theorem toposort_dropToolEdges (g : Graph) :
    toposort g = toposort (dropToolEdges g) := by
  have hce := controlEdges_dropToolEdges g
  have hch : ∀ u, childrenOf g u = childrenOf (dropToolEdges g) u := by
    intro u
    rw [childrenOf, childrenOf, hce]
  have hni : nodeIds (dropToolEdges g) = nodeIds g := rfl
  have hin : initIndeg g = initIndeg (dropToolEdges g) := by
    funext v
    rw [initIndeg, initIndeg, remIndeg, remIndeg, hce]
  have hkk : kahnKeys (dropToolEdges g) = kahnKeys g := by
    rw [kahnKeys, kahnKeys, hni]
  have hiq : initQueue g = initQueue (dropToolEdges g) := by
    rw [initQueue, initQueue, hkk, hin]
  have hfuel : kahnFuel g = kahnFuel (dropToolEdges g) := by
    rw [kahnFuel, kahnFuel, hkk, hin, hiq]
  rw [toposort, toposort, ← hin, ← hiq, ← hfuel]
  exact kahnRun_congr_children g (dropToolEdges g) hch _ _ _ _

/-- With no children anywhere, the loop flushes the queue in order. -/
theorem kahnRun_no_children (g : Graph) (hch : ∀ u, childrenOf g u = []) :
    ∀ (f : Nat) (queue : List String), queue.length < f →
      ∀ (indeg : String → Int) (order : List String),
        kahnRun g f indeg queue order = order ++ queue := by
  intro f
  induction f with
  | zero => intro queue h; omega
  | succ f ih =>
    intro queue hlen indeg order
    cases queue with
    | nil => simp [kahnRun]
    | cons q qs =>
      rw [kahnRun_succ, hch q]
      simp only [List.foldl_nil]
      have hq : qs.length < f := by
        simp only [List.length_cons] at hlen
        omega
      rw [ih qs hq _ _]
      simp

/-- With no control edges, the order is the node insertion order (the
stable tie-break of the spec, in the extreme case). -/
theorem toposort_no_control_edges (g : Graph) (h : controlEdges g = []) :
    toposort g = kahnKeys g := by
  have hch : ∀ u, childrenOf g u = [] := by
    intro u
    rw [childrenOf, h]
    rfl
  have hin : ∀ v, initIndeg g v = 0 := by
    intro v
    rw [initIndeg, remIndeg, h]
    rfl
  have hiq : initQueue g = kahnKeys g := by
    rw [initQueue]
    have hcg : (kahnKeys g).filter (fun v => decide (initIndeg g v = 0))
        = (kahnKeys g).filter (fun _ => true) :=
      List.filter_congr (fun v _ => by simp [hin v])
    rw [hcg, List.filter_true]
  have hflen : (initQueue g).length < kahnFuel g := by
    rw [kahnFuel]
    omega
  rw [toposort, kahnRun_no_children g hch _ _ hflen, hiq]
  rfl

/-- A graph with only tool edges has an acyclic control subgraph. -/
theorem controlAcyclic_of_no_control_edges (g : Graph) (h : controlEdges g = []) :
    ControlAcyclic g := by
  have hgen : ∀ a b, Relation.TransGen (ctrlStep g) a b → False := by
    intro a b hab
    induction hab with
    | single hstep =>
      obtain ⟨e, he, -⟩ := hstep
      rw [h] at he
      simp at he
    | tail hsteps hstep ih =>
      exact ih
  exact fun v hv => hgen v v hv

/-- C2: for every graph accepted by validation the returned topological
order is the deterministic `toposort` of the graph value (also used
verbatim by the executor via `engine.graph.toposort`); it places the
origin of every non-tool edge before its target, ignores tool edges
entirely, falls back to node insertion order when no control edge
exists, and any graph whose only cycles are among tool edges (acyclic
control subgraph) is accepted with that same order. -/
theorem c2_toposort_contract (g : Graph) (order : List String)
    (h : validateGraph g = .ok order) :
    order = toposort g
    ∧ engineToposort g = toposort g
    ∧ (∀ e ∈ controlEdges g,
        e.from_node ∈ order ∧ e.to_node ∈ order
        ∧ order.indexOf e.from_node < order.indexOf e.to_node)
    ∧ toposort g = toposort (dropToolEdges g)
    ∧ (controlEdges g = [] → order = nodeIds g)
    ∧ (∀ g2 : Graph, (nodeIds g2).Nodup → EdgesWF g2 → ControlAcyclic g2 →
        validateGraph g2 = .ok (toposort g2)) := by
  obtain ⟨hnd, hwf, hacyc⟩ := (validateGraph_ok_iff g).1 ⟨order, h⟩
  have horder := validateGraph_ok_eq g order h
  have hprops := toposort_props g hwf
  have hcomp := toposort_complete g hwf hacyc
  refine ⟨horder, rfl, ?_, toposort_dropToolEdges g, ?_, ?_⟩
  · intro e he
    have hto : e.to_node ∈ toposort g := by
      apply hcomp
      exact (mem_dedupFirst _ _).2 (hwf e (List.mem_filter.1 he).1).2
    have hp := hprops.2.2 e he hto
    rw [horder]
    exact ⟨hp.1, hto, hp.2⟩
  · intro hce
    rw [horder, toposort_no_control_edges g hce, kahnKeys, dedupFirst_of_nodup _ hnd]
  · intro g2 hnd2 hwf2 hacyc2
    obtain ⟨o2, ho2⟩ := (validateGraph_ok_iff g2).2 ⟨hnd2, hwf2, hacyc2⟩
    rw [ho2, validateGraph_ok_eq g2 o2 ho2]

/-- C2 witness: the contract applied to a concrete graph with one
control edge and a tool cycle, plus acceptance of the pure tool-cycle
graph. -/
theorem c2_witness :
    ["a", "t", "b"] = toposort c2DemoGraph
    ∧ toposort c2DemoGraph = toposort (dropToolEdges c2DemoGraph)
    ∧ validateGraph toolCycleGraph = .ok (toposort toolCycleGraph)
    ∧ toposort toolCycleGraph = ["a", "t"] := by
  have h := c2_toposort_contract c2DemoGraph ["a", "t", "b"] (by rfl)
  refine ⟨h.1, h.2.2.2.1, ?_, rfl⟩
  exact h.2.2.2.2.2 toolCycleGraph (by decide) (by unfold EdgesWF; decide)
    (controlAcyclic_of_no_control_edges toolCycleGraph rfl)

/-- C3 counterexample: the claim says validation rejects unknown block
types and settings-schema violations; but a graph whose single node has
an unregistered type, and one whose start settings violate the start
schema, both pass validation (they fail only at run time). -/
theorem c3_counterexample_no_registry_check :
    validateGraph unknownTypeGraph = .ok ["x1"]
    ∧ "does.not.exist" ∉ registeredBlockTypes
    ∧ (∃ n ∈ unknownTypeGraph.nodes, n.type ∉ registeredBlockTypes)
    ∧ validateGraph badStartSettingsGraph = .ok ["s"]
    ∧ startSettingsValidate (Json.obj [("payload", Json.num 5)])
        = .error "ValidationError: payload must be an object" := by
  refine ⟨rfl, by decide, ?_, rfl, rfl⟩
  exact ⟨⟨"x1", "does.not.exist", Json.obj []⟩, by simp [unknownTypeGraph], by decide⟩

/-- C3 (amended): graph validation - run by pydantic at
`POST /validate-graph` and at workflow write time - fails exactly when
the graph has a duplicate node id, an edge endpoint referencing no node,
or a cycle among non-tool edges; block-type resolution and node
settings-schema checks are not part of it. -/
theorem c3_validate_exactly (g : Graph) :
    (∃ o, validateGraph g = .ok o)
      ↔ ((nodeIds g).Nodup ∧ EdgesWF g ∧ ControlAcyclic g) :=
  validateGraph_ok_iff g

/-- C3 witness: both directions of the amended characterization at
concrete graphs. -/
theorem c3_witness :
    ((nodeIds helloGraph).Nodup ∧ EdgesWF helloGraph ∧ ControlAcyclic helloGraph)
    ∧ ¬ (∃ o, validateGraph ⟨[⟨"a", "start", Json.obj []⟩,
          ⟨"a", "start", Json.obj []⟩], []⟩ = .ok o) := by
  constructor
  · exact (c3_validate_exactly helloGraph).1 ⟨["s"], rfl⟩
  · intro hok
    have h := (c3_validate_exactly _).1 hok
    have := h.1
    simp [nodeIds] at this

/-! ## Loop decomposition lemmas for the failure-semantics claim -/

/-- The helper `addLog` leaves outputs untouched. -/
theorem addLog_outputs (st : LoopState) (m : String) (d : Option Json) (n : Option String) :
    (addLog st m d n).outputs = st.outputs := rfl

/-- The helper `addLog` leaves NodeRun rows untouched. -/
theorem addLog_nodeRuns (st : LoopState) (m : String) (d : Option Json) (n : Option String) :
    (addLog st m d n).nodeRuns = st.nodeRuns := rfl

/-- The helper `markNodeRunning` leaves outputs untouched. -/
theorem markNodeRunning_outputs (st : LoopState) (nid ntype : String) :
    (markNodeRunning st nid ntype).outputs = st.outputs := rfl

/-- The loop after a list concatenation: run the prefix; on failure stop
with its result, otherwise continue with the suffix. -/
theorem execLoop_append (g : Graph) (rb : String → Json → Except String Json)
    (trigger : Json) :
    ∀ (l1 l2 : List String) (st : LoopState),
      execLoop g rb trigger (l1 ++ l2) st
        = match execLoop g rb trigger l1 st with
          | (st1, Option.none) => execLoop g rb trigger l2 st1
          | (st1, some e) => (st1, some e) := by
  intro l1
  induction l1 with
  | nil => intro l2 st; rfl
  | cons nid rest ih =>
    intro l2 st
    show execLoop g rb trigger (nid :: (rest ++ l2)) st = _
    rw [execLoop, execLoop]
    cases hfind : g.nodes.find? (fun n => n.id = nid) with
    | none => rfl
    | some node =>
      by_cases htool : pyStartsWith node.type "tool." = true
      · simp only [htool, if_true]
        exact ih l2 _
      · simp only [htool, if_false, Bool.false_eq_true]
        cases hrb : rb node.type
            (buildNodeInput g node
              (addLog st ("Starting node " ++ node.id) Option.none (some node.id)).outputs
              trigger) with
        | ok result => exact ih l2 _
        | error msg => rfl

/-- Rows surviving an update come from the original rows, updated or
not. -/
theorem mem_updateNodeRun (rows : List NodeRunRec) (nid : String)
    (f : NodeRunRec → NodeRunRec) :
    ∀ r ∈ updateNodeRun rows nid f, ∃ r0 ∈ rows, (r = f r0 ∨ r = r0) := by
  intro r hr
  rw [updateNodeRun] at hr
  obtain ⟨r0, hr0, rfl⟩ := List.mem_map.1 hr
  by_cases h : r0.node_id = nid
  · exact ⟨r0, hr0, Or.inl (by simp [h])⟩
  · exact ⟨r0, hr0, Or.inr (by simp [h])⟩

/-- The loop never writes a NodeRun row for a node id outside the list
it processes. -/
theorem execLoop_nodeRuns_fresh (g : Graph) (rb : String → Json → Except String Json)
    (trigger : Json) (k : String) :
    ∀ (l : List String) (st : LoopState),
      (∀ r ∈ st.nodeRuns, r.node_id ≠ k) → k ∉ l →
      ∀ r ∈ (execLoop g rb trigger l st).1.nodeRuns, r.node_id ≠ k := by
  intro l
  induction l with
  | nil => intro st hst _; exact hst
  | cons nid rest ih =>
    intro st hst hk
    have hknid : k ≠ nid := fun h => hk (h ▸ List.mem_cons_self nid rest)
    have hkrest : k ∉ rest := fun h => hk (List.mem_cons_of_mem nid h)
    rw [execLoop]
    cases hfind : g.nodes.find? (fun n => n.id = nid) with
    | none => exact hst
    | some node =>
      have hid : node.id = nid := by
        have := List.find?_some hfind
        simpa using this
      by_cases htool : pyStartsWith node.type "tool." = true
      · simp only [htool, if_true]
        exact ih _ hst hkrest
      · simp only [htool, if_false, Bool.false_eq_true]
        have hmark : ∀ r ∈ (markNodeRunning
            (addLog st ("Starting node " ++ node.id) Option.none (some node.id))
            node.id node.type).nodeRuns, r.node_id ≠ k := by
          intro r hr
          rw [markNodeRunning] at hr
          simp only [addLog_nodeRuns] at hr
          rcases List.mem_append.1 hr with h | h
          · exact hst r h
          · simp only [List.mem_singleton] at h
            rw [h, hid]
            exact Ne.symm hknid
        cases hrb : rb node.type
            (buildNodeInput g node
              (addLog st ("Starting node " ++ node.id) Option.none (some node.id)).outputs
              trigger) with
        | ok result =>
          apply ih _ _ hkrest
          intro r hr
          simp only [addLog_nodeRuns] at hr
          obtain ⟨r0, hr0, hcase⟩ := mem_updateNodeRun _ node.id _ r hr
          rcases hcase with heq | heq
          · rw [heq]
            exact hmark r0 hr0
          · rw [heq]
            exact hmark r0 hr0
        | error msg =>
          intro r hr
          simp only [addLog_nodeRuns] at hr
          obtain ⟨r0, hr0, hcase⟩ := mem_updateNodeRun _ node.id _ r hr
          rcases hcase with heq | heq
          · rw [heq]
            exact hmark r0 hr0
          · rw [heq]
            exact hmark r0 hr0

/-- The loop never writes an output for a node id outside the list it
processes. -/
theorem execLoop_outputs_fresh (g : Graph) (rb : String → Json → Except String Json)
    (trigger : Json) (k : String) :
    ∀ (l : List String) (st : LoopState),
      (∀ p ∈ st.outputs, p.1 ≠ k) → k ∉ l →
      ∀ p ∈ (execLoop g rb trigger l st).1.outputs, p.1 ≠ k := by
  intro l
  induction l with
  | nil => intro st hst _; exact hst
  | cons nid rest ih =>
    intro st hst hk
    have hknid : k ≠ nid := fun h => hk (h ▸ List.mem_cons_self nid rest)
    have hkrest : k ∉ rest := fun h => hk (List.mem_cons_of_mem nid h)
    rw [execLoop]
    cases hfind : g.nodes.find? (fun n => n.id = nid) with
    | none => exact hst
    | some node =>
      have hid : node.id = nid := by
        have := List.find?_some hfind
        simpa using this
      by_cases htool : pyStartsWith node.type "tool." = true
      · simp only [htool, if_true]
        exact ih _ hst hkrest
      · simp only [htool, if_false, Bool.false_eq_true]
        cases hrb : rb node.type
            (buildNodeInput g node
              (addLog st ("Starting node " ++ node.id) Option.none (some node.id)).outputs
              trigger) with
        | ok result =>
          apply ih _ _ hkrest
          intro p hp
          simp only [addLog_outputs] at hp ⊢
          rcases List.mem_append.1 hp with h | h
          · exact hst p h
          · simp only [List.mem_singleton] at h
            rw [h, hid]
            exact Ne.symm hknid
        | error msg =>
          intro p hp
          simp only [addLog_outputs] at hp
          exact hst p hp

/-- Missing keys stay missing in the outputs map. -/
theorem lookupEntries_eq_none (entries : List (String × Json)) (k : String)
    (h : ∀ p ∈ entries, p.1 ≠ k) : lookupEntries entries k = none := by
  induction entries with
  | nil => rfl
  | cons p rest ih =>
    rw [lookupEntries]
    rw [if_neg (h p (List.mem_cons_self p rest))]
    exact ih (fun p2 hp2 => h p2 (List.mem_cons_of_mem p hp2))

/-- Evaluating one failing loop step: the loop aborts with the failing
state and the exception. -/
theorem execLoop_error_step (g : Graph) (rb : String → Json → Except String Json)
    (trigger : Json) (nid : String) (node : GNode) (l2 : List String)
    (st : LoopState) (msg : String)
    (hfind : g.nodes.find? (fun n => n.id = nid) = some node)
    (htool : pyStartsWith node.type "tool." = false)
    (herr : rb node.type (buildNodeInput g node st.outputs trigger) = .error msg) :
    execLoop g rb trigger (nid :: l2) st = (errStepState g node st trigger msg, some msg) := by
  rw [execLoop, hfind]
  simp only [htool, if_false, Bool.false_eq_true]
  rw [show (addLog st ("Starting node " ++ node.id) Option.none (some node.id)).outputs
      = st.outputs from rfl]
  rw [herr]
  rfl

/-- C1: when a node's block raises during the main pass, the executor
records that node's NodeRun as failed with the error message, appends
the "Node <id> failed" log, marks the whole run failed, executes no
later node of the topological order (no NodeRun row is written for
them), excludes the failing node's output from the run outputs and
retains the outputs of all previously succeeded nodes unchanged.
(Stated of the node loop, executor.py lines 63-116, with the block
semantics as a parameter.) -/
theorem c1_node_failure_halts (g : Graph) (rb : String → Json → Except String Json)
    (trigger : Json) (l1 l2 : List String) (node : GNode) (st : LoopState) (msg : String)
    (horder : toposort g = l1 ++ node.id :: l2)
    (hpre : execLoop g rb trigger l1 initLoopState = (st, Option.none))
    (hfind : g.nodes.find? (fun n => n.id = node.id) = some node)
    (htool : pyStartsWith node.type "tool." = false)
    (herr : rb node.type (buildNodeInput g node st.outputs trigger) = .error msg)
    (hfresh : node.id ∉ l1) :
    (execBody g rb trigger (toposort g)).2 = "failed"
    ∧ (execBody g rb trigger (toposort g)).1.outputs = st.outputs
    ∧ lookupEntries (execBody g rb trigger (toposort g)).1.outputs node.id = none
    ∧ (⟨node.id, node.type, "failed",
         some (buildNodeInput g node st.outputs trigger), Option.none,
         some (Json.obj [("message", Json.str msg)])⟩ : NodeRunRec)
        ∈ (execBody g rb trigger (toposort g)).1.nodeRuns
    ∧ (⟨"Node " ++ node.id ++ " failed: " ++ msg,
         some (Json.obj [("error", Json.str msg)]), some node.id⟩ : LogRec)
        ∈ (execBody g rb trigger (toposort g)).1.logs
    ∧ (∀ k ∈ l2, k ∉ l1 → k ≠ node.id →
        ∀ r ∈ (execBody g rb trigger (toposort g)).1.nodeRuns, r.node_id ≠ k) := by
  have hstfresh : ∀ p ∈ st.outputs, p.1 ≠ node.id := by
    have h := execLoop_outputs_fresh g rb trigger node.id l1 initLoopState
      (by intro p hp; simp [initLoopState] at hp) hfresh
    rw [hpre] at h
    exact h
  have hstnr : ∀ r ∈ st.nodeRuns, r.node_id ≠ node.id := by
    have h := execLoop_nodeRuns_fresh g rb trigger node.id l1 initLoopState
      (by intro r hr; simp [initLoopState] at hr) hfresh
    rw [hpre] at h
    exact h
  have hrun : execLoop g rb trigger (toposort g) initLoopState
      = (errStepState g node st trigger msg, some msg) := by
    rw [horder, execLoop_append, hpre]
    show execLoop g rb trigger (node.id :: l2) st = _
    exact execLoop_error_step g rb trigger node.id node l2 st msg hfind htool herr
  have hbody : execBody g rb trigger (toposort g)
      = (errStepState g node st trigger msg, "failed") := by
    rw [execBody, hrun]
  have hupd : (errStepState g node st trigger msg).nodeRuns
      = updateNodeRun st.nodeRuns node.id
          (fun r =>
            { r with
              status := "failed"
              input_json := some (buildNodeInput g node st.outputs trigger)
              error_json := some (Json.obj [("message", Json.str msg)]) })
        ++ [⟨node.id, node.type, "failed",
             some (buildNodeInput g node st.outputs trigger), Option.none,
             some (Json.obj [("message", Json.str msg)])⟩] := by
    show updateNodeRun
        (st.nodeRuns ++ [⟨node.id, node.type, "running", Option.none, Option.none, Option.none⟩])
        node.id _ = _
    rw [updateNodeRun, List.map_append]
    rw [updateNodeRun]
    congr 1
    simp
  rw [hbody]
  refine ⟨rfl, rfl, ?_, ?_, ?_, ?_⟩
  · exact lookupEntries_eq_none _ _ hstfresh
  · rw [hupd]
    exact List.mem_append.2 (Or.inr (List.mem_singleton.2 rfl))
  · show _ ∈ (st.logs ++ [⟨"Starting node " ++ node.id, Option.none, some node.id⟩])
      ++ [⟨"Node " ++ node.id ++ " failed: " ++ msg,
           some (Json.obj [("error", Json.str msg)]), some node.id⟩]
    exact List.mem_append.2 (Or.inr (List.mem_singleton.2 rfl))
  · intro k hk hkl1 hknode r hr
    rw [hupd] at hr
    rcases List.mem_append.1 hr with hr | hr
    · obtain ⟨r0, hr0, hcase⟩ := mem_updateNodeRun _ node.id _ r hr
      have hfr : ∀ p ∈ st.nodeRuns, p.node_id ≠ k := by
        have h := execLoop_nodeRuns_fresh g rb trigger k l1 initLoopState
          (by intro p hp; simp [initLoopState] at hp) hkl1
        rw [hpre] at h
        exact h
      rcases hcase with heq | heq
      · rw [heq]
        exact hfr r0 hr0
      · rw [heq]
        exact hfr r0 hr0
    · simp only [List.mem_singleton] at hr
      rw [hr]
      exact Ne.symm hknode

/-- C1 witness: the failure-propagation scenario A → B → C with B an
unknown block type; the run fails, outputs keep A only, the failure log
for B exists and no NodeRun is written for C. -/
theorem c1_witness :
    (execBody failDemoGraph run_block_model (Json.obj []) (toposort failDemoGraph)).2 = "failed"
    ∧ (execBody failDemoGraph run_block_model (Json.obj [])
        (toposort failDemoGraph)).1.outputs = [("A", Json.obj [("x", Json.num 1)])]
    ∧ lookupEntries (execBody failDemoGraph run_block_model (Json.obj [])
        (toposort failDemoGraph)).1.outputs "B" = none
    ∧ (⟨"Node B failed: Unknown block type: does.not.exist",
         some (Json.obj [("error", Json.str "Unknown block type: does.not.exist")]),
         some "B"⟩ : LogRec)
        ∈ (execBody failDemoGraph run_block_model (Json.obj [])
            (toposort failDemoGraph)).1.logs
    ∧ (∀ r ∈ (execBody failDemoGraph run_block_model (Json.obj [])
        (toposort failDemoGraph)).1.nodeRuns, r.node_id ≠ "C") := by
  have h := c1_node_failure_halts failDemoGraph run_block_model (Json.obj [])
    ["A"] ["C"] ⟨"B", "does.not.exist", Json.obj []⟩
    ⟨[("A", Json.obj [("x", Json.num 1)])],
     [⟨"A", "start", "succeeded",
       some (Json.obj [("settings", Json.obj [("payload", Json.obj [("x", Json.num 1)])]),
                       ("upstream", Json.obj []), ("trigger", Json.obj []),
                       ("node_id", Json.str "A")]),
       some (Json.obj [("x", Json.num 1)]), Option.none⟩],
     [⟨"Starting node A", Option.none, some "A"⟩, ⟨"Finished node A", Option.none, some "A"⟩]⟩
    "Unknown block type: does.not.exist"
    (by rfl) (by rfl) (by rfl) (by rfl) (by rfl) (by decide)
  refine ⟨h.1, by rw [h.2.1], h.2.2.1, h.2.2.2.2.1, ?_⟩
  intro r hr
  exact h.2.2.2.2.2 "C" (by decide) (by decide) (by decide) r hr

end WorkflowSpec
